import Mathlib

/-!
# Catnect4: the board, the win detector and the alpha-beta search

A shallow embedding of `Catnect4.cpp`.  The global `board` of the program is
threaded explicitly: every function that reads it takes a `Board`, every
function that writes it returns the new `Board` next to its result.
-/

namespace Catnect4

/-! ## Constants -/

abbrev ROWS : Nat := 6
abbrev COLS : Nat := 7

def EMPTY : Char := '.'
def PLAYER_PIECE : Char := 'X'
def AI_PIECE : Char := 'O'

/-- The search depth limit `MAX_DEPTH`. -/
def MAX_DEPTH : Int := 4

/-- The value of `std::numeric_limits<int>::max()` for a 32-bit `int`. -/
def INT_MAX : Int := 2147483647

/-! ## The board -/

/-- The grid `board`: `ROWS` rows of `COLS` characters, indexed `board[row][col]`. -/
abbrev Board := Fin ROWS → Fin COLS → Char

/-- The assignment `board[row][col] = v`. -/
def setCell (b : Board) (row : Fin ROWS) (col : Fin COLS) (v : Char) : Board :=
  fun i j => if i = row ∧ j = col then v else b i j

/-- The assignment `board[row][col] = v` where `row` is an `int` variable.  The
program only executes it with `row` a value other than `-1` returned by
`getAvailableRow`, which is a row of the grid. -/
def writeCell (b : Board) (row : Int) (col : Fin COLS) (v : Char) : Board :=
  if h : 0 ≤ row ∧ row < (ROWS : Int) then
    setCell b ⟨row.toNat, by omega⟩ col v
  else b

/-- The board built by `resetBoard` (and by the initialiser of `board`). -/
def resetBoard : Board := fun _ _ => EMPTY

/-- The loop `for (row = 0; row < ROWS; ++row) if (board[row][col] == EMPTY)`
shared by `dropPiece` and `getAvailableRow`: the first row at which the loop
body fires, if any. -/
def firstEmptyRow (b : Board) (col : Fin COLS) : Option (Fin ROWS) :=
  (List.finRange ROWS).find? (fun row => b row col == EMPTY)

/-- `dropPiece(col, piece)`: the returned flag and the board afterwards. -/
def dropPiece (col : Int) (piece : Char) (b : Board) : Bool × Board :=
  if h : col < 0 ∨ col ≥ (COLS : Int) then (false, b)
  else
    let c : Fin COLS := ⟨col.toNat, by omega⟩
    match firstEmptyRow b c with
    | some row => (true, setCell b row c piece)
    | none => (false, b)

/-- `getAvailableRow(col)`: the lowest empty row of the column, or `-1`. -/
def getAvailableRow (b : Board) (col : Fin COLS) : Int :=
  match firstEmptyRow b col with
  | some row => (row.val : Int)
  | none => -1

/-! ## Win detection -/

/-- The body of the double loop of `checkWin` at one cell: the cell holds
`piece` and one of the four guarded line tests succeeds. -/
def checkWinAt (b : Board) (piece : Char) (row : Fin ROWS) (col : Fin COLS) : Bool :=
  b row col == piece &&
    ((if h : col.val + 3 < COLS then
        b row ⟨col.val + 1, by omega⟩ == piece &&
        b row ⟨col.val + 2, by omega⟩ == piece &&
        b row ⟨col.val + 3, h⟩ == piece
      else false) ||
     (if h : row.val + 3 < ROWS then
        b ⟨row.val + 1, by omega⟩ col == piece &&
        b ⟨row.val + 2, by omega⟩ col == piece &&
        b ⟨row.val + 3, h⟩ col == piece
      else false) ||
     (if h : row.val + 3 < ROWS ∧ col.val + 3 < COLS then
        b ⟨row.val + 1, by omega⟩ ⟨col.val + 1, by omega⟩ == piece &&
        b ⟨row.val + 2, by omega⟩ ⟨col.val + 2, by omega⟩ == piece &&
        b ⟨row.val + 3, h.1⟩ ⟨col.val + 3, h.2⟩ == piece
      else false) ||
     (if h : row.val + 3 < ROWS ∧ 3 ≤ col.val then
        b ⟨row.val + 1, by omega⟩ ⟨col.val - 1, by omega⟩ == piece &&
        b ⟨row.val + 2, by omega⟩ ⟨col.val - 2, by omega⟩ == piece &&
        b ⟨row.val + 3, h.1⟩ ⟨col.val - 3, by omega⟩ == piece
      else false))

/-- `checkWin(piece)`: the double loop over all cells, returning at the first hit. -/
def checkWin (b : Board) (piece : Char) : Bool :=
  (List.finRange ROWS).any fun row =>
    (List.finRange COLS).any fun col => checkWinAt b piece row col

/-- `evaluateBoard(piece)`. -/
def evaluateBoard (b : Board) (piece : Char) : Int :=
  let score : Int := 0
  let score := if checkWin b piece then score + 1000 else score
  let opponentPiece := if piece = AI_PIECE then PLAYER_PIECE else AI_PIECE
  let score := if checkWin b opponentPiece then score - 1000 else score
  score

/-! ## Search -/

/-- The column loop of `minimax`, from the columns still to visit.  `child` is
the recursive call `minimax(depth - 1, !isMaximizingPlayer, ·, ·)` run on the
current board; `none` means that the call did not return. -/
def minimaxLoop (child : Int → Int → Board → Option (Int × Board))
    (isMaximizingPlayer : Bool) (currentPiece : Char) :
    List (Fin COLS) → Int → Int → Int → Board → Option (Int × Board)
  | [], bestScore, _, _, b => some (bestScore, b)
  | col :: rest, bestScore, alpha, beta, b =>
    let row := getAvailableRow b col
    if row ≠ -1 then
      match child alpha beta (writeCell b row col currentPiece) with
      | none => none
      | some (score, b1) =>
        let b2 := writeCell b1 row col EMPTY
        let bestScore := if isMaximizingPlayer then max score bestScore else min score bestScore
        let alpha := if isMaximizingPlayer then max alpha bestScore else alpha
        let beta := if isMaximizingPlayer then beta else min beta bestScore
        if beta ≤ alpha then some (bestScore, b2)
        else minimaxLoop child isMaximizingPlayer currentPiece rest bestScore alpha beta b2
    else minimaxLoop child isMaximizingPlayer currentPiece rest bestScore alpha beta b

/-- `minimax(depth, isMaximizingPlayer, alpha, beta)` with a bound `fuel` on the
nesting of recursive calls; `none` when the bound is hit. -/
def minimaxAux : Nat → Int → Bool → Int → Int → Board → Option (Int × Board)
  | 0, _, _, _, _, _ => none
  | fuel + 1, depth, isMaximizingPlayer, alpha, beta, b =>
    let currentPiece := if isMaximizingPlayer then AI_PIECE else PLAYER_PIECE
    if checkWin b AI_PIECE then some (1000, b)
    else if checkWin b PLAYER_PIECE then some (-1000, b)
    else if depth = 0 then some (evaluateBoard b currentPiece, b)
    else
      let bestScore := if isMaximizingPlayer then -INT_MAX else INT_MAX
      minimaxLoop (minimaxAux fuel (depth - 1) (!isMaximizingPlayer))
        isMaximizingPlayer currentPiece (List.finRange COLS) bestScore alpha beta b

/-- `minimax(depth, isMaximizingPlayer, alpha, beta)`.  Every nested call runs on
a board with one empty cell less, so the nesting never exceeds the 42 cells of
the grid (`minimax_eq`). -/
@[irreducible]
def minimax (depth : Int) (isMaximizingPlayer : Bool) (alpha beta : Int) (b : Board) :
    Option (Int × Board) :=
  minimaxAux (ROWS * COLS + 1) depth isMaximizingPlayer alpha beta b

/-- The comparator of the `std::sort` call in `getBestMove`. -/
def closerToCenter (a b : Fin COLS) : Prop :=
  ((a.val : Int) - (COLS : Int) / 2).natAbs < ((b.val : Int) - (COLS : Int) / 2).natAbs

instance : DecidableRel closerToCenter := fun _ _ =>
  inferInstanceAs (Decidable (_ < _))

/-- Insertion of one element into a sorted prefix, after the elements that do
not compare greater than it. -/
def sortInsert (x : Fin COLS) : List (Fin COLS) → List (Fin COLS)
  | [] => [x]
  | y :: ys => if closerToCenter x y then x :: y :: ys else y :: sortInsert x ys

/-- The vector `cols` after `std::sort`: the columns `0..COLS-1` ordered by
`closerToCenter`.  For a range this short the standard libraries sort by
insertion, which leaves columns at equal distance in their natural order. -/
def sortedCols : List (Fin COLS) :=
  (List.finRange COLS).foldl (fun acc x => sortInsert x acc) []

/-- The loop `for (int col : cols)` of `getBestMove`. -/
def getBestMoveLoop :
    List (Fin COLS) → Int → Int → Board → Option (Int × Board)
  | [], bestCol, _, b => some (bestCol, b)
  | col :: rest, bestCol, bestScore, b =>
    let row := getAvailableRow b col
    if row ≠ -1 then
      match minimax MAX_DEPTH false (-INT_MAX) INT_MAX (writeCell b row col AI_PIECE) with
      | none => none
      | some (score, b1) =>
        let b2 := writeCell b1 row col EMPTY
        if score > bestScore then getBestMoveLoop rest (col.val : Int) score b2
        else getBestMoveLoop rest bestCol bestScore b2
    else getBestMoveLoop rest bestCol bestScore b

/-- `getBestMove()`: the chosen column (or `-1`) and the board afterwards. -/
def getBestMove (b : Board) : Option (Int × Board) :=
  getBestMoveLoop sortedCols (-1) (-INT_MAX) b

/-! ## Pure reading of the search

The value computed by the search, with the board passed down only.  The
theorems `minimaxAux_eq` and `getBestMoveLoop_eq` show that the state-passing
definitions above return this value together with the board they started from.
-/

/-- The value of `minimaxLoop`, given the value `child` of the recursive call. -/
def minimaxValLoop (child : Int → Int → Board → Int)
    (isMaximizingPlayer : Bool) (currentPiece : Char) :
    List (Fin COLS) → Int → Int → Int → Board → Int
  | [], bestScore, _, _, _ => bestScore
  | col :: rest, bestScore, alpha, beta, b =>
    let row := getAvailableRow b col
    if row ≠ -1 then
      let score := child alpha beta (writeCell b row col currentPiece)
      let bestScore := if isMaximizingPlayer then max score bestScore else min score bestScore
      let alpha := if isMaximizingPlayer then max alpha bestScore else alpha
      let beta := if isMaximizingPlayer then beta else min beta bestScore
      if beta ≤ alpha then bestScore
      else minimaxValLoop child isMaximizingPlayer currentPiece rest bestScore alpha beta b
    else minimaxValLoop child isMaximizingPlayer currentPiece rest bestScore alpha beta b

/-- The value of `minimaxAux`. -/
def minimaxVal : Nat → Int → Bool → Int → Int → Board → Int
  | 0, _, _, _, _, _ => 0
  | fuel + 1, depth, isMaximizingPlayer, alpha, beta, b =>
    let currentPiece := if isMaximizingPlayer then AI_PIECE else PLAYER_PIECE
    if checkWin b AI_PIECE then 1000
    else if checkWin b PLAYER_PIECE then -1000
    else if depth = 0 then evaluateBoard b currentPiece
    else
      let bestScore := if isMaximizingPlayer then -INT_MAX else INT_MAX
      minimaxValLoop (minimaxVal fuel (depth - 1) (!isMaximizingPlayer))
        isMaximizingPlayer currentPiece (List.finRange COLS) bestScore alpha beta b

/-- The column computed by `getBestMoveLoop`. -/
def getBestMoveValLoop : List (Fin COLS) → Int → Int → Board → Int
  | [], bestCol, _, _ => bestCol
  | col :: rest, bestCol, bestScore, b =>
    let row := getAvailableRow b col
    if row ≠ -1 then
      let score := minimaxVal (ROWS * COLS + 1) MAX_DEPTH false (-INT_MAX) INT_MAX
        (writeCell b row col AI_PIECE)
      if score > bestScore then getBestMoveValLoop rest (col.val : Int) score b
      else getBestMoveValLoop rest bestCol bestScore b
    else getBestMoveValLoop rest bestCol bestScore b

/-! ## Auxiliary notions used to state the properties -/

/-- The content of the cell at integer coordinates, `none` outside the grid. -/
def cellAt (b : Board) (r c : Int) : Option Char :=
  if h : (0 ≤ r ∧ r < (ROWS : Int)) ∧ (0 ≤ c ∧ c < (COLS : Int)) then
    some (b ⟨r.toNat, by omega⟩ ⟨c.toNat, by omega⟩)
  else none

/-- The four line directions `(dr, dc)` of the win test. -/
def directions : List (Int × Int) := [(0, 1), (1, 0), (1, 1), (1, -1)]

/-- A line of four cells starting at `(r, c)` in direction `d`, all inside the
grid and all holding `piece`. -/
def lineOfFour (b : Board) (piece : Char) (r c : Int) (d : Int × Int) : Prop :=
  ∀ k ∈ [(0 : Int), 1, 2, 3], cellAt b (r + k * d.1) (c + k * d.2) = some piece

/-- Number of empty cells of the board. -/
def emptyCount (b : Board) : Nat :=
  (Finset.univ.filter (fun rc : Fin ROWS × Fin COLS => b rc.1 rc.2 = EMPTY)).card

/-- The board has no empty cell. -/
def boardFull (b : Board) : Prop := ∀ r c, b r c ≠ EMPTY

instance (b : Board) : Decidable (boardFull b) :=
  inferInstanceAs (Decidable (∀ r c, b r c ≠ EMPTY))

/-- Boards reached from the empty board by successful `dropPiece` calls, with
any column argument and any piece. -/
inductive Reachable : Board → Prop
  | reset : Reachable resetBoard
  | drop (b : Board) (col : Int) (piece : Char) :
      Reachable b → (dropPiece col piece b).1 = true → Reachable (dropPiece col piece b).2

/-- Gravity: below an occupied cell every cell of the column is occupied. -/
def Gravity (b : Board) : Prop :=
  ∀ (col : Fin COLS) (r r2 : Fin ROWS), r2 < r → b r col ≠ EMPTY → b r2 col ≠ EMPTY

/-- Modelled from the spec: `undo(column)`, which "clears the highest occupied
cell in `column`".  The program has no such function; the search undoes a move
by the assignment `board[row][col] = EMPTY` (`writeCell`). -/
def undo (b : Board) (col : Fin COLS) : Board :=
  match (List.finRange ROWS).reverse.find? (fun row => b row col != EMPTY) with
  | some row => setCell b row col EMPTY
  | none => b

/-- Build a board from its rows, bottom row first; missing cells are empty. -/
def ofRows (rows : List (List Char)) : Board :=
  fun i j => (rows.getD i.val []).getD j.val EMPTY

/-- A board on which both pieces have four in a row. -/
def bothWin : Board :=
  ofRows [['O', 'O', 'O', 'O', '.', '.', '.'],
          ['X', 'X', 'X', 'X', '.', '.', '.']]

/-- The board whose only pieces are three `O` in row 0 at columns 1, 2 and 3. -/
def threeInRow : Board :=
  ofRows [['.', 'O', 'O', 'O', '.', '.', '.']]

/-- A board with 20 pieces of each side, none of them with four in a row, reached
by alternating drops that start with `O`; its two empty cells are the top of
column 3. -/
def drawnButTwo : Board :=
  ofRows [['X', 'O', 'X', 'X', 'O', 'O', 'O'],
          ['X', 'O', 'O', 'O', 'X', 'X', 'X'],
          ['O', 'X', 'X', 'O', 'O', 'O', 'X'],
          ['X', 'O', 'X', 'X', 'X', 'O', 'O'],
          ['O', 'X', 'O', '.', 'O', 'X', 'X'],
          ['X', 'O', 'X', '.', 'O', 'X', 'O']]

/-- The board after the two remaining cells of `drawnButTwo` are filled, `O`
first: no cell is empty and neither side has four in a row. -/
def fullDrawn : Board :=
  ofRows [['X', 'O', 'X', 'X', 'O', 'O', 'O'],
          ['X', 'O', 'O', 'O', 'X', 'X', 'X'],
          ['O', 'X', 'X', 'O', 'O', 'O', 'X'],
          ['X', 'O', 'X', 'X', 'X', 'O', 'O'],
          ['O', 'X', 'O', 'O', 'O', 'X', 'X'],
          ['X', 'O', 'X', 'X', 'O', 'X', 'O']]

/-- The board after seven alternating drops, `O` first, into the columns
0, 1, ..., 6: row 0 is occupied, every other row is empty. -/
def bottomRowFull : Board :=
  ofRows [['O', 'X', 'O', 'X', 'O', 'X', 'O']]

/-! ## The game loop -/

/-- The draw test of `playGame`,
`std::all_of(board[0].begin(), board[0].end(), [](char c) { return c != EMPTY; })`:
every cell of `board[0]` differs from `EMPTY`. -/
def boardFullTest (b : Board) : Bool :=
  (List.finRange COLS).all fun c => b 0 c != EMPTY

/-- The board after a sequence of calls `dropPiece(col, piece)`, each of which
may succeed or fail. -/
def dropAll (calls : List (Int × Char)) (b : Board) : Board :=
  calls.foldl (fun acc call => (dropPiece call.1 call.2 acc).2) b

/-- The score that `getBestMove` computes for an available column `col`: the
result of `minimax(MAX_DEPTH, false, -INT_MAX, INT_MAX)` on the board with the
AI piece written at `getAvailableRow(col)`. -/
def moveScore (b : Board) (col : Fin COLS) : Option Int :=
  (minimax MAX_DEPTH false (-INT_MAX) INT_MAX
    (writeCell b (getAvailableRow b col) col AI_PIECE)).map Prod.fst

/-- The value of `moveScore` in the pure reading of the search. -/
def moveScoreVal (b : Board) (col : Fin COLS) : Int :=
  minimaxVal (ROWS * COLS + 1) MAX_DEPTH false (-INT_MAX) INT_MAX
    (writeCell b (getAvailableRow b col) col AI_PIECE)

/-- Number of cells of the board that hold `piece`. -/
def pieceCount (b : Board) (piece : Char) : Nat :=
  (Finset.univ.filter (fun rc : Fin ROWS × Fin COLS => b rc.1 rc.2 = piece)).card

/-! ## Plain minimax, as the specification words it

The search without the bounds `alpha` and `beta`: the same terminal checks and
depth-0 evaluation, and the maximum or minimum over all columns with available
space, starting from the same initial `bestScore`. -/

/-- The column loop of the plain search: no bounds, no early exit. -/
def plainLoop (child : Board → Int) (isMaximizingPlayer : Bool) (currentPiece : Char) :
    List (Fin COLS) → Int → Board → Int
  | [], bestScore, _ => bestScore
  | col :: rest, bestScore, b =>
    let row := getAvailableRow b col
    if row ≠ -1 then
      let score := child (writeCell b row col currentPiece)
      let bestScore := if isMaximizingPlayer then max score bestScore else min score bestScore
      plainLoop child isMaximizingPlayer currentPiece rest bestScore b
    else plainLoop child isMaximizingPlayer currentPiece rest bestScore b

/-- The plain search with a bound `fuel` on the nesting of recursive calls. -/
def plainMinimaxAux : Nat → Int → Bool → Board → Int
  | 0, _, _, _ => 0
  | fuel + 1, depth, isMaximizingPlayer, b =>
    let currentPiece := if isMaximizingPlayer then AI_PIECE else PLAYER_PIECE
    if checkWin b AI_PIECE then 1000
    else if checkWin b PLAYER_PIECE then -1000
    else if depth = 0 then evaluateBoard b currentPiece
    else
      let bestScore := if isMaximizingPlayer then -INT_MAX else INT_MAX
      plainLoop (plainMinimaxAux fuel (depth - 1) (!isMaximizingPlayer))
        isMaximizingPlayer currentPiece (List.finRange COLS) bestScore b

/-- The plain search.  Every nested call runs on a board with one empty cell
less, so a nesting bound above the 42 cells of the grid is never hit
(`plainMinimaxAux_fuel`). -/
def plainMinimax (depth : Int) (isMaximizingPlayer : Bool) (b : Board) : Int :=
  plainMinimaxAux (ROWS * COLS + 1) depth isMaximizingPlayer b

/-- The guarantee of a search with the window `(alpha, beta)` that returns `v`
where the plain search returns `p`: `v` is an upper bound of `p` when it is at
most `alpha`, a lower bound when it is at least `beta`, and equal to `p` when
it lies strictly between the two. -/
def WindowSound (alpha beta v p : Int) : Prop :=
  (v ≤ alpha → p ≤ v) ∧ (beta ≤ v → v ≤ p) ∧ (alpha < v → v < beta → p = v)

/-! ## Basic facts about the board operations -/

theorem firstEmptyRow_eq_some {b : Board} {col : Fin COLS} {row : Fin ROWS}
    (h : firstEmptyRow b col = some row) :
    b row col = EMPTY ∧ ∀ r, r < row → b r col ≠ EMPTY := by
  unfold firstEmptyRow at h
  have hp := List.find?_some h
  constructor
  · simpa using hp
  · rw [List.find?_eq_some] at h
    obtain ⟨_, as, bs, hsplit, hnot⟩ := h
    intro r hr
    have hsorted : (List.finRange ROWS).Pairwise (· < ·) := List.pairwise_lt_finRange ROWS
    rw [hsplit, List.pairwise_append] at hsorted
    have hmem : r ∈ as ++ row :: bs := hsplit ▸ List.mem_finRange r
    rcases List.mem_append.1 hmem with h1 | h1
    · simpa using hnot r h1
    · rcases List.mem_cons.1 h1 with h2 | h2
      · exact absurd h2 (ne_of_lt hr)
      · have := (List.pairwise_cons.1 hsorted.2.1).1 r h2
        exact absurd hr (not_lt_of_lt this)

theorem firstEmptyRow_eq_none {b : Board} {col : Fin COLS}
    (h : firstEmptyRow b col = none) : ∀ r, b r col ≠ EMPTY := by
  unfold firstEmptyRow at h
  rw [List.find?_eq_none] at h
  intro r
  simpa using h r (List.mem_finRange r)

theorem firstEmptyRow_of_empty {b : Board} {col : Fin COLS} {r : Fin ROWS}
    (h : b r col = EMPTY) : ∃ row, firstEmptyRow b col = some row := by
  cases hf : firstEmptyRow b col with
  | some row => exact ⟨row, rfl⟩
  | none => exact absurd h (firstEmptyRow_eq_none hf r)

theorem firstEmptyRow_of_full {b : Board} {col : Fin COLS}
    (h : ∀ r, b r col ≠ EMPTY) : firstEmptyRow b col = none := by
  cases hf : firstEmptyRow b col with
  | some row => exact absurd (firstEmptyRow_eq_some hf).1 (h row)
  | none => rfl

theorem getAvailableRow_of_some {b : Board} {col : Fin COLS} {row : Fin ROWS}
    (h : firstEmptyRow b col = some row) : getAvailableRow b col = (row.val : Int) := by
  simp [getAvailableRow, h]

theorem getAvailableRow_of_none {b : Board} {col : Fin COLS}
    (h : firstEmptyRow b col = none) : getAvailableRow b col = -1 := by
  simp [getAvailableRow, h]

theorem getAvailableRow_ne_neg_one {b : Board} {col : Fin COLS}
    (h : getAvailableRow b col ≠ -1) :
    ∃ row, firstEmptyRow b col = some row ∧ getAvailableRow b col = (row.val : Int) := by
  cases hf : firstEmptyRow b col with
  | some row => exact ⟨row, rfl, getAvailableRow_of_some hf⟩
  | none => exact absurd (getAvailableRow_of_none hf) h

theorem writeCell_coe (b : Board) (row : Fin ROWS) (col : Fin COLS) (v : Char) :
    writeCell b (row.val : Int) col v = setCell b row col v := by
  have h : 0 ≤ (row.val : Int) ∧ (row.val : Int) < (ROWS : Int) := by
    constructor <;> omega
  simp [writeCell, h]

theorem setCell_apply (b : Board) (row : Fin ROWS) (col : Fin COLS) (v : Char)
    (i : Fin ROWS) (j : Fin COLS) :
    setCell b row col v i j = if i = row ∧ j = col then v else b i j := rfl

theorem setCell_restore {b : Board} {row : Fin ROWS} {col : Fin COLS} (v : Char)
    (h : b row col = EMPTY) : setCell (setCell b row col v) row col EMPTY = b := by
  funext i j
  simp only [setCell_apply]
  by_cases hij : i = row ∧ j = col
  · simp [hij, h]
  · simp [hij]

theorem dropPiece_coe (b : Board) (col : Fin COLS) (piece : Char) :
    dropPiece (col.val : Int) piece b =
      match firstEmptyRow b col with
      | some row => (true, setCell b row col piece)
      | none => (false, b) := by
  have h : ¬ ((col.val : Int) < 0 ∨ (col.val : Int) ≥ (COLS : Int)) := by omega
  simp [dropPiece, h]

theorem dropPiece_success {b : Board} {col : Int} {piece : Char}
    (h : (dropPiece col piece b).1 = true) :
    ∃ (c : Fin COLS) (row : Fin ROWS), col = (c.val : Int) ∧ firstEmptyRow b c = some row ∧
      (dropPiece col piece b).2 = setCell b row c piece := by
  by_cases hcol : col < 0 ∨ col ≥ (COLS : Int)
  · unfold dropPiece at h
    rw [dif_pos hcol] at h
    exact absurd h (by simp)
  · have hc : col.toNat < COLS := by omega
    have hcoe : col = ((⟨col.toNat, hc⟩ : Fin COLS).val : Int) := by
      show col = (col.toNat : Int)
      omega
    generalize (⟨col.toNat, hc⟩ : Fin COLS) = c at hcoe
    subst hcoe
    refine ⟨c, ?_⟩
    rw [dropPiece_coe] at h ⊢
    cases hf : firstEmptyRow b c with
    | none => rw [hf] at h; exact absurd h (by simp)
    | some row => exact ⟨row, rfl, rfl, rfl⟩

theorem lastOccupied_eq_some {b : Board} {col : Fin COLS} {row : Fin ROWS}
    (h : (List.finRange ROWS).reverse.find? (fun r => b r col != EMPTY) = some row) :
    b row col ≠ EMPTY ∧ ∀ r, row < r → b r col = EMPTY := by
  have hp := List.find?_some h
  constructor
  · simpa using hp
  · rw [List.find?_eq_some] at h
    obtain ⟨_, as, bs, hsplit, hnot⟩ := h
    intro r hr
    have hsorted : (List.finRange ROWS).reverse.Pairwise (· > ·) :=
      List.pairwise_reverse.2 (List.pairwise_lt_finRange ROWS)
    rw [hsplit, List.pairwise_append] at hsorted
    have hmem : r ∈ as ++ row :: bs := hsplit ▸ List.mem_reverse.2 (List.mem_finRange r)
    rcases List.mem_append.1 hmem with h1 | h1
    · simpa using hnot r h1
    · rcases List.mem_cons.1 h1 with h2 | h2
      · exact absurd h2 (ne_of_gt hr)
      · have := (List.pairwise_cons.1 hsorted.2.1).1 r h2
        exact absurd hr (not_lt_of_lt this)

theorem gravity_resetBoard : Gravity resetBoard := by
  intro col r r2 _ h
  exact absurd rfl h

theorem gravity_setCell {b : Board} {col : Fin COLS} {row : Fin ROWS} {piece : Char}
    (hg : Gravity b) (hrow : firstEmptyRow b col = some row) (hp : piece ≠ EMPTY) :
    Gravity (setCell b row col piece) := by
  have hspec := firstEmptyRow_eq_some hrow
  intro c r r2 hlt hocc
  simp only [setCell_apply] at hocc ⊢
  by_cases h2 : r2 = row ∧ c = col
  · rw [if_pos h2]; exact hp
  · rw [if_neg h2]
    by_cases h1 : r = row ∧ c = col
    · obtain ⟨rfl, rfl⟩ := h1
      exact hspec.2 r2 hlt
    · rw [if_neg h1] at hocc
      exact hg c r r2 hlt hocc

theorem piece_ne_EMPTY {piece : Char} (hp : piece = PLAYER_PIECE ∨ piece = AI_PIECE) :
    piece ≠ EMPTY := by
  rcases hp with rfl | rfl <;> decide

theorem setCell_same {b : Board} {row : Fin ROWS} {col : Fin COLS}
    (h : b row col = EMPTY) : setCell b row col EMPTY = b := by
  funext i j
  simp only [setCell_apply]
  by_cases hij : i = row ∧ j = col
  · simp [hij, h]
  · simp [hij]

theorem gravity_of_reachable {b : Board} (h : Reachable b) : Gravity b := by
  induction h with
  | reset => exact gravity_resetBoard
  | drop b col piece _ hok ih =>
    obtain ⟨c, row, _, hrow, hb⟩ := dropPiece_success hok
    rw [hb]
    by_cases hp : piece = EMPTY
    · rw [hp, setCell_same (firstEmptyRow_eq_some hrow).1]
      exact ih
    · exact gravity_setCell ih hrow hp

theorem undo_setCell {b : Board} {col : Fin COLS} {row : Fin ROWS} {piece : Char}
    (hg : Gravity b) (hrow : firstEmptyRow b col = some row) (hp : piece ≠ EMPTY) :
    undo (setCell b row col piece) col = b := by
  have hspec := firstEmptyRow_eq_some hrow
  have habove : ∀ r, row < r → b r col = EMPTY := by
    intro r hr
    by_contra hne
    exact hg col r row hr hne hspec.1
  unfold undo
  cases hf : (List.finRange ROWS).reverse.find?
      (fun r => setCell b row col piece r col != EMPTY) with
  | none =>
    rw [List.find?_eq_none] at hf
    have := hf row (List.mem_reverse.2 (List.mem_finRange row))
    simp [setCell_apply] at this
    exact absurd this hp
  | some r =>
    have hlast := lastOccupied_eq_some hf
    have hr : r = row := by
      rcases lt_trichotomy r row with hlt | heq | hgt
      · have := hlast.2 row hlt
        simp [setCell_apply] at this
        exact absurd this hp
      · exact heq
      · have hne := hlast.1
        simp only [setCell_apply] at hne
        rw [if_neg (fun hc => absurd hc.1 (ne_of_gt hgt))] at hne
        exact absurd (habove r hgt) hne
    subst hr
    exact setCell_restore piece hspec.1

/-! ## Facts about the win test -/

theorem dite_false_eq_true {c : Prop} [Decidable c] (f : c → Bool) :
    (if h : c then f h else false) = true ↔ ∃ h : c, f h = true := by
  by_cases h : c <;> simp [h]

theorem cellAt_eq_some_iff (b : Board) (r c : Int) (p : Char) :
    cellAt b r c = some p ↔
      ∃ (i : Fin ROWS) (j : Fin COLS), (i.val : Int) = r ∧ (j.val : Int) = c ∧ b i j = p := by
  unfold cellAt
  constructor
  · intro h
    split at h
    · rename_i hb
      refine ⟨⟨r.toNat, by omega⟩, ⟨c.toNat, by omega⟩, ?_, ?_, by simpa using h⟩
      · show (r.toNat : Int) = r
        omega
      · show (c.toNat : Int) = c
        omega
    · exact absurd h (by simp)
  · rintro ⟨i, j, rfl, rfl, rfl⟩
    have hb : (0 ≤ (i.val : Int) ∧ (i.val : Int) < (ROWS : Int)) ∧
        (0 ≤ (j.val : Int) ∧ (j.val : Int) < (COLS : Int)) := by
      have := i.isLt
      have := j.isLt
      omega
    rw [dif_pos hb]
    rfl

theorem cellAt_coe (b : Board) (i j : Nat) (p : Char) :
    cellAt b (i : Int) (j : Int) = some p ↔
      ∃ (hi : i < ROWS) (hj : j < COLS), b ⟨i, hi⟩ ⟨j, hj⟩ = p := by
  rw [cellAt_eq_some_iff]
  constructor
  · rintro ⟨i2, j2, hi, hj, hp⟩
    have hi2 : i2.val = i := by omega
    have hj2 : j2.val = j := by omega
    subst hi2 hj2
    exact ⟨i2.isLt, j2.isLt, hp⟩
  · rintro ⟨hi, hj, hp⟩
    exact ⟨⟨i, hi⟩, ⟨j, hj⟩, rfl, rfl, hp⟩

theorem lineOfFour_iff (b : Board) (piece : Char) (r c : Int) (d : Int × Int) :
    lineOfFour b piece r c d ↔
      cellAt b r c = some piece ∧ cellAt b (r + 1 * d.1) (c + 1 * d.2) = some piece ∧
      cellAt b (r + 2 * d.1) (c + 2 * d.2) = some piece ∧
      cellAt b (r + 3 * d.1) (c + 3 * d.2) = some piece := by
  simp [lineOfFour]

theorem cellAt_coe_sub (b : Board) (i j n : Nat) (p : Char) :
    cellAt b (i : Int) ((j : Int) - (n : Int)) = some p ↔
      ∃ (hi : i < ROWS) (_ : n ≤ j) (hj : j - n < COLS), b ⟨i, hi⟩ ⟨j - n, hj⟩ = p := by
  by_cases hn : n ≤ j
  · have e : (j : Int) - (n : Int) = ((j - n : Nat) : Int) := by omega
    rw [e, cellAt_coe]
    constructor
    · rintro ⟨hi, hj, hp⟩
      exact ⟨hi, hn, hj, hp⟩
    · rintro ⟨hi, _, hj, hp⟩
      exact ⟨hi, hj, hp⟩
  · rw [cellAt_eq_some_iff]
    constructor
    · rintro ⟨_, j2, _, hj, _⟩
      omega
    · rintro ⟨_, h, _⟩
      exact absurd h hn

theorem checkWinAt_iff (b : Board) (piece : Char) (row : Fin ROWS) (col : Fin COLS) :
    checkWinAt b piece row col = true ↔
      ∃ d ∈ directions, lineOfFour b piece (row.val : Int) (col.val : Int) d := by
  have hr := row.isLt
  have hc := col.isLt
  have e0 : ∀ (x : Nat), (x : Int) + 1 * 0 = (x : Int) := by intro x; omega
  have e0b : ∀ (x : Nat), (x : Int) + 2 * 0 = (x : Int) := by intro x; omega
  have e0c : ∀ (x : Nat), (x : Int) + 3 * 0 = (x : Int) := by intro x; omega
  have e1 : ∀ (x : Nat), (x : Int) + 1 * 1 = ((x + 1 : Nat) : Int) := by intro x; omega
  have e2 : ∀ (x : Nat), (x : Int) + 2 * 1 = ((x + 2 : Nat) : Int) := by intro x; omega
  have e3 : ∀ (x : Nat), (x : Int) + 3 * 1 = ((x + 3 : Nat) : Int) := by intro x; omega
  have m1 : ∀ (x : Nat), (x : Int) + 1 * -1 = (x : Int) - ((1 : Nat) : Int) := by
    intro x; omega
  have m2 : ∀ (x : Nat), (x : Int) + 2 * -1 = (x : Int) - ((2 : Nat) : Int) := by
    intro x; omega
  have m3 : ∀ (x : Nat), (x : Int) + 3 * -1 = (x : Int) - ((3 : Nat) : Int) := by
    intro x; omega
  simp only [directions, List.mem_cons, List.mem_singleton, List.not_mem_nil, or_false,
    exists_eq_or_imp, exists_eq_left, lineOfFour_iff, e0, e0b, e0c, e1, e2, e3, m1, m2, m3,
    cellAt_coe, cellAt_coe_sub]
  unfold checkWinAt
  simp only [Bool.and_eq_true, Bool.or_eq_true, beq_iff_eq, dite_false_eq_true]
  constructor
  · rintro ⟨h0, ((⟨h, ⟨h1, h2⟩, h3⟩ | ⟨h, ⟨h1, h2⟩, h3⟩) | ⟨h, ⟨h1, h2⟩, h3⟩) | ⟨h, ⟨h1, h2⟩, h3⟩⟩
    · exact Or.inl ⟨⟨hr, hc, h0⟩, ⟨hr, by omega, h1⟩, ⟨hr, by omega, h2⟩, ⟨hr, h, h3⟩⟩
    · exact Or.inr (Or.inl
        ⟨⟨hr, hc, h0⟩, ⟨by omega, hc, h1⟩, ⟨by omega, hc, h2⟩, ⟨h, hc, h3⟩⟩)
    · exact Or.inr (Or.inr (Or.inl
        ⟨⟨hr, hc, h0⟩, ⟨by omega, by omega, h1⟩, ⟨by omega, by omega, h2⟩, ⟨h.1, h.2, h3⟩⟩))
    · exact Or.inr (Or.inr (Or.inr
        ⟨⟨hr, hc, h0⟩, ⟨by omega, by omega, by omega, h1⟩, ⟨by omega, by omega, by omega, h2⟩,
          ⟨h.1, h.2, by omega, h3⟩⟩))
  · rintro (⟨⟨_, _, h0⟩, ⟨_, _, h1⟩, ⟨_, _, h2⟩, ⟨_, g, h3⟩⟩ |
      ⟨⟨_, _, h0⟩, ⟨_, _, h1⟩, ⟨_, _, h2⟩, ⟨g, _, h3⟩⟩ |
      ⟨⟨_, _, h0⟩, ⟨_, _, h1⟩, ⟨_, _, h2⟩, ⟨g, g2, h3⟩⟩ |
      ⟨⟨_, _, h0⟩, ⟨_, _, _, h1⟩, ⟨_, _, _, h2⟩, ⟨g, g2, _, h3⟩⟩)
    · exact ⟨h0, Or.inl (Or.inl (Or.inl ⟨g, ⟨h1, h2⟩, h3⟩))⟩
    · exact ⟨h0, Or.inl (Or.inl (Or.inr ⟨g, ⟨h1, h2⟩, h3⟩))⟩
    · exact ⟨h0, Or.inl (Or.inr ⟨⟨g, g2⟩, ⟨h1, h2⟩, h3⟩)⟩
    · exact ⟨h0, Or.inr ⟨⟨g, g2⟩, ⟨h1, h2⟩, h3⟩⟩

theorem checkWin_iff (b : Board) (piece : Char) :
    checkWin b piece = true ↔ ∃ row col, checkWinAt b piece row col = true := by
  simp [checkWin, List.any_eq_true, List.mem_finRange]

/-! ## The search returns, with the board restored -/

theorem emptyCount_le (b : Board) : emptyCount b ≤ ROWS * COLS := by
  unfold emptyCount
  calc (Finset.univ.filter (fun rc : Fin ROWS × Fin COLS => b rc.1 rc.2 = EMPTY)).card
      ≤ (Finset.univ : Finset (Fin ROWS × Fin COLS)).card := Finset.card_filter_le _ _
    _ = ROWS * COLS := by simp

theorem emptyCount_setCell_lt {b : Board} {row : Fin ROWS} {col : Fin COLS} {piece : Char}
    (hcell : b row col = EMPTY) (hp : piece ≠ EMPTY) :
    emptyCount (setCell b row col piece) < emptyCount b := by
  unfold emptyCount
  apply Finset.card_lt_card
  rw [Finset.ssubset_iff_of_subset]
  · refine ⟨(row, col), ?_, ?_⟩
    · simp [hcell]
    · simp [setCell_apply, hp]
  · intro rc hrc
    simp only [Finset.mem_filter, Finset.mem_univ, true_and, setCell_apply] at hrc ⊢
    by_cases h : rc.1 = row ∧ rc.2 = col
    · rw [if_pos h] at hrc
      exact absurd hrc hp
    · rw [if_neg h] at hrc
      exact hrc

theorem currentPiece_ne_EMPTY (isMaximizingPlayer : Bool) :
    (if isMaximizingPlayer then AI_PIECE else PLAYER_PIECE) ≠ EMPTY := by
  cases isMaximizingPlayer <;> decide

/-- Facts about a speculative move: when `getAvailableRow` reports a row, writing a
piece there fills an empty cell, and clearing the cell again restores the board. -/
theorem speculative_move {b : Board} {col : Fin COLS} {piece : Char}
    (hrow : getAvailableRow b col ≠ -1) (hp : piece ≠ EMPTY) :
    emptyCount (writeCell b (getAvailableRow b col) col piece) < emptyCount b ∧
    writeCell (writeCell b (getAvailableRow b col) col piece) (getAvailableRow b col) col EMPTY
      = b := by
  obtain ⟨row, hfirst, hval⟩ := getAvailableRow_ne_neg_one hrow
  have hspec := firstEmptyRow_eq_some hfirst
  rw [hval, writeCell_coe, writeCell_coe]
  exact ⟨emptyCount_setCell_lt hspec.1 hp, setCell_restore piece hspec.1⟩

theorem ite_some_eq (c : Prop) [Decidable c] (x v : Int) (b : Board)
    (rest : Option (Int × Board)) (h : rest = some (v, b)) :
    (if c then some (x, b) else rest) = some (if c then x else v, b) := by
  split
  · rfl
  · exact h

theorem minimaxLoop_eq (child : Int → Int → Board → Option (Int × Board))
    (childVal : Int → Int → Board → Int) (isMaximizingPlayer : Bool) (piece : Char)
    (b : Board) (hp : piece ≠ EMPTY)
    (hchild : ∀ alpha beta b2, emptyCount b2 < emptyCount b →
      child alpha beta b2 = some (childVal alpha beta b2, b2)) :
    ∀ (cols : List (Fin COLS)) (bestScore alpha beta : Int),
      minimaxLoop child isMaximizingPlayer piece cols bestScore alpha beta b =
        some (minimaxValLoop childVal isMaximizingPlayer piece cols bestScore alpha beta b, b) := by
  intro cols
  induction cols with
  | nil => intro bestScore alpha beta; rfl
  | cons col rest ih =>
    intro bestScore alpha beta
    unfold minimaxLoop minimaxValLoop
    by_cases hrow : getAvailableRow b col ≠ -1
    · obtain ⟨hlt, hrestore⟩ := speculative_move hrow hp
      simp only [if_pos hrow, hchild alpha beta _ hlt, hrestore]
      exact ite_some_eq _ _ _ _ _ (ih _ _ _)
    · simp only [if_neg hrow]
      exact ih _ _ _

theorem minimaxAux_eq : ∀ (fuel : Nat) (depth : Int) (isMaximizingPlayer : Bool)
    (alpha beta : Int) (b : Board), emptyCount b < fuel →
    minimaxAux fuel depth isMaximizingPlayer alpha beta b =
      some (minimaxVal fuel depth isMaximizingPlayer alpha beta b, b) := by
  intro fuel
  induction fuel with
  | zero => intro _ _ _ _ b h; exact absurd h (Nat.not_lt_zero _)
  | succ fuel ih =>
    intro depth isMaximizingPlayer alpha beta b hfuel
    unfold minimaxAux minimaxVal
    by_cases h1 : checkWin b AI_PIECE = true
    · simp only [if_pos h1]
    · simp only [if_neg h1]
      by_cases h2 : checkWin b PLAYER_PIECE = true
      · simp only [if_pos h2]
      · simp only [if_neg h2]
        by_cases h3 : depth = 0
        · simp only [if_pos h3]
        · simp only [if_neg h3]
          apply minimaxLoop_eq _ _ _ _ _ (currentPiece_ne_EMPTY isMaximizingPlayer)
          intro a2 b2 board2 hlt
          exact ih _ _ _ _ _ (by omega)

theorem minimax_eq (depth : Int) (isMaximizingPlayer : Bool) (alpha beta : Int) (b : Board) :
    minimax depth isMaximizingPlayer alpha beta b =
      some (minimaxVal (ROWS * COLS + 1) depth isMaximizingPlayer alpha beta b, b) := by
  unfold minimax
  exact minimaxAux_eq _ _ _ _ _ _ (Nat.lt_succ_of_le (emptyCount_le b))

theorem getBestMoveLoop_eq (b : Board) :
    ∀ (cols : List (Fin COLS)) (bestCol bestScore : Int),
      getBestMoveLoop cols bestCol bestScore b =
        some (getBestMoveValLoop cols bestCol bestScore b, b) := by
  intro cols
  induction cols with
  | nil => intro bestCol bestScore; rfl
  | cons col rest ih =>
    intro bestCol bestScore
    unfold getBestMoveLoop getBestMoveValLoop
    by_cases hrow : getAvailableRow b col ≠ -1
    · obtain ⟨_, hrestore⟩ := speculative_move hrow (show AI_PIECE ≠ EMPTY by decide)
      simp only [if_pos hrow, minimax_eq, hrestore]
      split
      · exact ih _ _
      · exact ih _ _
    · simp only [if_neg hrow]
      exact ih _ _

theorem getBestMove_eq (b : Board) :
    getBestMove b = some (getBestMoveValLoop sortedCols (-1) (-INT_MAX) b, b) :=
  getBestMoveLoop_eq b _ _ _

/-! ## Facts about failed drops, full boards and the static evaluation -/

theorem dropPiece_fail {b : Board} {col : Int} {piece : Char}
    (h : (dropPiece col piece b).1 = false) : (dropPiece col piece b).2 = b := by
  by_cases hcol : col < 0 ∨ col ≥ (COLS : Int)
  · unfold dropPiece
    rw [dif_pos hcol]
  · unfold dropPiece at h ⊢
    rw [dif_neg hcol] at h ⊢
    dsimp only at h ⊢
    generalize firstEmptyRow b _ = o at h ⊢
    cases o with
    | none => rfl
    | some row => exact absurd h (by simp)

theorem gravity_dropPiece {b : Board} (col : Int) {piece : Char} (hg : Gravity b)
    (hp : piece ≠ EMPTY) : Gravity (dropPiece col piece b).2 := by
  cases hok : (dropPiece col piece b).1 with
  | true =>
    obtain ⟨c, row, _, hrow, hb⟩ := dropPiece_success hok
    rw [hb]
    exact gravity_setCell hg hrow hp
  | false =>
    rw [dropPiece_fail hok]
    exact hg

theorem gravity_dropAll (calls : List (Int × Char)) :
    ∀ b : Board, Gravity b → (∀ call ∈ calls, call.2 = PLAYER_PIECE ∨ call.2 = AI_PIECE) →
      Gravity (dropAll calls b) := by
  induction calls with
  | nil => intro b hg _; exact hg
  | cons call rest ih =>
    intro b hg hp
    show Gravity (dropAll rest (dropPiece call.1 call.2 b).2)
    apply ih
    · exact gravity_dropPiece _ hg (piece_ne_EMPTY (hp call (List.mem_cons_self _ _)))
    · intro c hc
      exact hp c (List.mem_cons_of_mem _ hc)

theorem gravity_run {b : Board} (hg : Gravity b) (col : Fin COLS) :
    ∃ h : Nat, h ≤ ROWS ∧ ∀ r : Fin ROWS, b r col ≠ EMPTY ↔ r.val < h := by
  cases hf : firstEmptyRow b col with
  | none =>
    refine ⟨ROWS, le_refl _, fun r => ?_⟩
    exact ⟨fun _ => r.isLt, fun _ => firstEmptyRow_eq_none hf r⟩
  | some row =>
    have hspec := firstEmptyRow_eq_some hf
    refine ⟨row.val, le_of_lt row.isLt, fun r => ⟨fun hocc => ?_, fun hlt => hspec.2 r hlt⟩⟩
    by_contra hge
    rcases Nat.eq_or_lt_of_le (not_lt.1 hge) with heq | hlt
    · exact hocc ((Fin.ext heq : row = r) ▸ hspec.1)
    · exact hg col r row hlt hocc hspec.1

theorem boardFullTest_iff (b : Board) : boardFullTest b = true ↔ ∀ c, b 0 c ≠ EMPTY := by
  simp [boardFullTest, List.all_eq_true, List.mem_finRange]

theorem getAvailableRow_of_boardFull {b : Board} (h : boardFull b) (c : Fin COLS) :
    getAvailableRow b c = -1 :=
  getAvailableRow_of_none (firstEmptyRow_of_full (fun r => h r c))

theorem minimaxValLoop_full (child : Int → Int → Board → Int) (isMaximizingPlayer : Bool)
    (piece : Char) (b : Board) (hfull : ∀ c, getAvailableRow b c = -1) :
    ∀ (cols : List (Fin COLS)) (bestScore alpha beta : Int),
      minimaxValLoop child isMaximizingPlayer piece cols bestScore alpha beta b = bestScore := by
  intro cols
  induction cols with
  | nil => intro _ _ _; rfl
  | cons col rest ih =>
    intro bestScore alpha beta
    unfold minimaxValLoop
    simp only [hfull col, ne_eq, not_true_eq_false, if_false]
    exact ih _ _ _

theorem evaluateBoard_eq (b : Board) (piece : Char) :
    evaluateBoard b piece =
      (if checkWin b piece then 1000 else 0) -
        (if checkWin b (if piece = AI_PIECE then PLAYER_PIECE else AI_PIECE) then 1000 else 0) := by
  unfold evaluateBoard
  dsimp only
  generalize checkWin b piece = p
  generalize checkWin b (if piece = AI_PIECE then PLAYER_PIECE else AI_PIECE) = q
  cases p <;> cases q <;> simp

theorem minimaxVal_no_win {b : Board} (fuel : Nat) (depth : Int) (isMaximizingPlayer : Bool)
    (alpha beta : Int) (hO : checkWin b AI_PIECE = false) (hX : checkWin b PLAYER_PIECE = false) :
    minimaxVal (fuel + 1) depth isMaximizingPlayer alpha beta b =
      if depth = 0 then evaluateBoard b (if isMaximizingPlayer then AI_PIECE else PLAYER_PIECE)
      else minimaxValLoop (minimaxVal fuel (depth - 1) (!isMaximizingPlayer)) isMaximizingPlayer
        (if isMaximizingPlayer then AI_PIECE else PLAYER_PIECE) (List.finRange COLS)
        (if isMaximizingPlayer then -INT_MAX else INT_MAX) alpha beta b := by
  rw [minimaxVal]
  simp only [hO, hX, Bool.false_eq_true, if_false]

theorem evaluateBoard_no_win {b : Board} (isMaximizingPlayer : Bool)
    (hO : checkWin b AI_PIECE = false) (hX : checkWin b PLAYER_PIECE = false) :
    evaluateBoard b (if isMaximizingPlayer then AI_PIECE else PLAYER_PIECE) = 0 := by
  rw [evaluateBoard_eq]
  cases isMaximizingPlayer
  · have e : (if PLAYER_PIECE = AI_PIECE then PLAYER_PIECE else AI_PIECE) = AI_PIECE := by decide
    simp [hO, hX, e]
  · simp [hO, hX]

/-! ## Facts about the column loops of the search -/

theorem moveScore_eq (b : Board) (col : Fin COLS) :
    moveScore b col = some (moveScoreVal b col) := by
  unfold moveScore moveScoreVal
  rw [minimax_eq]
  rfl

theorem dropPiece_of_available {b : Board} {col : Fin COLS} (piece : Char)
    (h : getAvailableRow b col ≠ -1) :
    dropPiece (col.val : Int) piece b = (true, writeCell b (getAvailableRow b col) col piece) := by
  obtain ⟨row, hfirst, hval⟩ := getAvailableRow_ne_neg_one h
  rw [dropPiece_coe, hfirst, hval, writeCell_coe]

theorem getBestMoveValLoop_spec (b : Board) :
    ∀ (cols : List (Fin COLS)) (bestCol bestScore : Int),
      (getBestMoveValLoop cols bestCol bestScore b = bestCol ∧
        ∀ k ∈ cols, getAvailableRow b k ≠ -1 → moveScoreVal b k ≤ bestScore) ∨
      (∃ pre cf post, cols = pre ++ cf :: post ∧
        getBestMoveValLoop cols bestCol bestScore b = (cf.val : Int) ∧
        getAvailableRow b cf ≠ -1 ∧ bestScore < moveScoreVal b cf ∧
        (∀ k ∈ pre, getAvailableRow b k ≠ -1 → moveScoreVal b k < moveScoreVal b cf) ∧
        (∀ k ∈ post, getAvailableRow b k ≠ -1 → moveScoreVal b k ≤ moveScoreVal b cf)) := by
  intro cols
  induction cols with
  | nil =>
    intro bestCol bestScore
    exact Or.inl ⟨rfl, fun k hk => absurd hk (List.not_mem_nil k)⟩
  | cons col rest ih =>
    intro bestCol bestScore
    unfold getBestMoveValLoop
    by_cases hrow : getAvailableRow b col ≠ -1
    · have hs : minimaxVal (ROWS * COLS + 1) MAX_DEPTH false (-INT_MAX) INT_MAX
          (writeCell b (getAvailableRow b col) col AI_PIECE) = moveScoreVal b col := rfl
      simp only [if_pos hrow, hs]
      by_cases hgt : moveScoreVal b col > bestScore
      · simp only [if_pos hgt]
        rcases ih (col.val : Int) (moveScoreVal b col) with
          ⟨h1, h2⟩ | ⟨pre, cf, post, h1, h2, h3, h4, h5, h6⟩
        · exact Or.inr ⟨[], col, rest, rfl, h1, hrow, hgt,
            fun k hk => absurd hk (List.not_mem_nil k), h2⟩
        · refine Or.inr ⟨col :: pre, cf, post, by rw [h1]; rfl, h2, h3, lt_trans hgt h4,
            fun k hk => ?_, h6⟩
          rcases List.mem_cons.1 hk with rfl | hk
          · exact fun _ => h4
          · exact h5 k hk
      · simp only [if_neg hgt]
        rcases ih bestCol bestScore with ⟨h1, h2⟩ | ⟨pre, cf, post, h1, h2, h3, h4, h5, h6⟩
        · refine Or.inl ⟨h1, fun k hk => ?_⟩
          rcases List.mem_cons.1 hk with rfl | hk
          · exact fun _ => not_lt.1 hgt
          · exact h2 k hk
        · refine Or.inr ⟨col :: pre, cf, post, by rw [h1]; rfl, h2, h3, h4, fun k hk => ?_, h6⟩
          rcases List.mem_cons.1 hk with rfl | hk
          · exact fun _ => lt_of_le_of_lt (not_lt.1 hgt) h4
          · exact h5 k hk
    · simp only [if_neg hrow]
      rcases ih bestCol bestScore with ⟨h1, h2⟩ | ⟨pre, cf, post, h1, h2, h3, h4, h5, h6⟩
      · refine Or.inl ⟨h1, fun k hk => ?_⟩
        rcases List.mem_cons.1 hk with rfl | hk
        · exact fun h => absurd h hrow
        · exact h2 k hk
      · refine Or.inr ⟨col :: pre, cf, post, by rw [h1]; rfl, h2, h3, h4, fun k hk => ?_, h6⟩
        rcases List.mem_cons.1 hk with rfl | hk
        · exact fun h => absurd h hrow
        · exact h5 k hk

theorem emptyCount_setCell {b : Board} {row : Fin ROWS} {col : Fin COLS} {piece : Char}
    (hcell : b row col = EMPTY) (hp : piece ≠ EMPTY) :
    emptyCount (setCell b row col piece) + 1 = emptyCount b := by
  unfold emptyCount
  have hins : Finset.univ.filter (fun rc : Fin ROWS × Fin COLS => b rc.1 rc.2 = EMPTY) =
      insert (row, col)
        (Finset.univ.filter
          (fun rc : Fin ROWS × Fin COLS => setCell b row col piece rc.1 rc.2 = EMPTY)) := by
    ext ⟨i, j⟩
    simp only [Finset.mem_filter, Finset.mem_univ, true_and, Finset.mem_insert, Prod.mk.injEq,
      setCell_apply]
    by_cases h : i = row ∧ j = col
    · obtain ⟨rfl, rfl⟩ := h
      simp [hcell]
    · simp [h]
  rw [hins, Finset.card_insert_of_not_mem]
  simp [setCell_apply, hp]

theorem emptyCount_writeCell {b : Board} {col : Fin COLS} {piece : Char}
    (hrow : getAvailableRow b col ≠ -1) (hp : piece ≠ EMPTY) :
    emptyCount (writeCell b (getAvailableRow b col) col piece) + 1 = emptyCount b := by
  obtain ⟨row, hfirst, hval⟩ := getAvailableRow_ne_neg_one hrow
  rw [hval, writeCell_coe]
  exact emptyCount_setCell (firstEmptyRow_eq_some hfirst).1 hp

theorem exists_available {b : Board} (h : 0 < emptyCount b) :
    ∃ col, getAvailableRow b col ≠ -1 := by
  unfold emptyCount at h
  obtain ⟨⟨r, c⟩, hrc⟩ := Finset.card_pos.1 h
  have hcell : b r c = EMPTY := by simpa using hrc
  obtain ⟨row, hrow⟩ := firstEmptyRow_of_empty hcell
  refine ⟨c, ?_⟩
  rw [getAvailableRow_of_some hrow]
  omega

theorem ite_cases_prop (P : Int → Prop) (c : Prop) [Decidable c] {x y : Int}
    (hx : P x) (hy : P y) : P (if c then x else y) := by
  split
  · exact hx
  · exact hy

/-- A property of scores that holds of the initial `bestScore` and of every
child's result, and is kept by `max` and `min`, holds of the loop's result. -/
theorem minimaxValLoop_closed (P : Int → Prop)
    (hmax : ∀ x y, P x → P y → P (max x y)) (hmin : ∀ x y, P x → P y → P (min x y))
    (child : Int → Int → Board → Int) (isMaximizingPlayer : Bool) (piece : Char) (b : Board)
    (hchild : ∀ col alpha beta, getAvailableRow b col ≠ -1 →
      P (child alpha beta (writeCell b (getAvailableRow b col) col piece))) :
    ∀ (cols : List (Fin COLS)) (bestScore alpha beta : Int), P bestScore →
      P (minimaxValLoop child isMaximizingPlayer piece cols bestScore alpha beta b) := by
  intro cols
  induction cols with
  | nil => intro bestScore _ _ h; exact h
  | cons col rest ih =>
    intro bestScore alpha beta hbest
    unfold minimaxValLoop
    by_cases hrow : getAvailableRow b col ≠ -1
    · have hnew : P (if isMaximizingPlayer
          then max (child alpha beta (writeCell b (getAvailableRow b col) col piece)) bestScore
          else min (child alpha beta (writeCell b (getAvailableRow b col) col piece)) bestScore) := by
        cases isMaximizingPlayer
        · exact hmin _ _ (hchild col alpha beta hrow) hbest
        · exact hmax _ _ (hchild col alpha beta hrow) hbest
      simp only [if_pos hrow]
      exact ite_cases_prop P _ hnew (ih _ _ _ hnew)
    · simp only [if_neg hrow]
      exact ih _ _ _ hbest

/-- The same for an initial `bestScore` that is neutral for the property, provided
some column of the loop is available. -/
theorem minimaxValLoop_closed_init (P : Int → Prop)
    (hmax : ∀ x y, P x → P y → P (max x y)) (hmin : ∀ x y, P x → P y → P (min x y))
    (child : Int → Int → Board → Int) (isMaximizingPlayer : Bool) (piece : Char) (b : Board)
    (hchild : ∀ col alpha beta, getAvailableRow b col ≠ -1 →
      P (child alpha beta (writeCell b (getAvailableRow b col) col piece)))
    (bestScore : Int)
    (hinit : ∀ s, P s → P (if isMaximizingPlayer then max s bestScore else min s bestScore)) :
    ∀ (cols : List (Fin COLS)) (alpha beta : Int), (∃ k ∈ cols, getAvailableRow b k ≠ -1) →
      P (minimaxValLoop child isMaximizingPlayer piece cols bestScore alpha beta b) := by
  intro cols
  induction cols with
  | nil =>
    rintro _ _ ⟨k, hk, _⟩
    exact absurd hk (List.not_mem_nil k)
  | cons col rest ih =>
    rintro alpha beta ⟨k, hk, hav⟩
    unfold minimaxValLoop
    by_cases hrow : getAvailableRow b col ≠ -1
    · have hnew := hinit _ (hchild col alpha beta hrow)
      simp only [if_pos hrow]
      exact ite_cases_prop P _ hnew
        (minimaxValLoop_closed P hmax hmin child isMaximizingPlayer piece b hchild
          rest _ _ _ hnew)
    · simp only [if_neg hrow]
      apply ih
      rcases List.mem_cons.1 hk with rfl | hk
      · exact absurd hav hrow
      · exact ⟨k, hk, hav⟩

theorem checkWin_eq_false {b : Board} {piece : Char} (h : ¬ checkWin b piece = true) :
    checkWin b piece = false := by
  simpa using h

/-- With at least `depth` empty cells the value of the search is `-1000`, `0`
or `1000`. -/
theorem minimaxVal_range : ∀ (fuel : Nat) (depth : Int) (isMaximizingPlayer : Bool)
    (alpha beta : Int) (b : Board), emptyCount b < fuel → 0 ≤ depth →
    depth ≤ (emptyCount b : Int) →
    minimaxVal fuel depth isMaximizingPlayer alpha beta b = -1000 ∨
    minimaxVal fuel depth isMaximizingPlayer alpha beta b = 0 ∨
    minimaxVal fuel depth isMaximizingPlayer alpha beta b = 1000 := by
  intro fuel
  induction fuel with
  | zero => intro _ _ _ _ b h; exact absurd h (Nat.not_lt_zero _)
  | succ fuel ih =>
    intro depth isMaximizingPlayer alpha beta b hfuel hd hcells
    by_cases h1 : checkWin b AI_PIECE = true
    · right; right
      rw [minimaxVal]
      simp only [h1, if_true]
    by_cases h2 : checkWin b PLAYER_PIECE = true
    · left
      rw [minimaxVal]
      simp only [h1, h2, if_true, if_false, Bool.false_eq_true]
    have hO := checkWin_eq_false h1
    have hX := checkWin_eq_false h2
    rw [minimaxVal_no_win _ _ _ _ _ hO hX]
    by_cases h3 : depth = 0
    · right; left
      rw [if_pos h3]
      exact evaluateBoard_no_win isMaximizingPlayer hO hX
    rw [if_neg h3]
    have hpos : 0 < emptyCount b := by omega
    obtain ⟨k, hk⟩ := exists_available hpos
    apply minimaxValLoop_closed_init (fun v => v = -1000 ∨ v = 0 ∨ v = 1000)
    · intro x y hx hy
      rcases hx with rfl | rfl | rfl <;> rcases hy with rfl | rfl | rfl <;> simp
    · intro x y hx hy
      rcases hx with rfl | rfl | rfl <;> rcases hy with rfl | rfl | rfl <;> simp
    · intro col a2 b2 hcol
      have hcount := emptyCount_writeCell hcol (currentPiece_ne_EMPTY isMaximizingPlayer)
      exact ih _ _ _ _ _ (by omega) (by omega) (by omega)
    · intro s hs
      cases isMaximizingPlayer
      · rcases hs with rfl | rfl | rfl <;> simp [INT_MAX]
      · rcases hs with rfl | rfl | rfl <;> simp [INT_MAX]
    · exact ⟨k, List.mem_finRange k, hk⟩

/-! ## Alpha-beta against the plain search -/

theorem minimaxValLoop_cons_skip (child : Int → Int → Board → Int) (isMaximizingPlayer : Bool)
    (piece : Char) (col : Fin COLS) (rest : List (Fin COLS)) (bestScore alpha beta : Int)
    (b : Board) (h : ¬ getAvailableRow b col ≠ -1) :
    minimaxValLoop child isMaximizingPlayer piece (col :: rest) bestScore alpha beta b =
      minimaxValLoop child isMaximizingPlayer piece rest bestScore alpha beta b := by
  rw [minimaxValLoop]
  simp only [if_neg h]

theorem minimaxValLoop_cons_max (child : Int → Int → Board → Int)
    (piece : Char) (col : Fin COLS) (rest : List (Fin COLS)) (bestScore alpha beta : Int)
    (b : Board) (h : getAvailableRow b col ≠ -1) :
    minimaxValLoop child true piece (col :: rest) bestScore alpha beta b =
      if beta ≤ max alpha
          (max (child alpha beta (writeCell b (getAvailableRow b col) col piece)) bestScore) then
        max (child alpha beta (writeCell b (getAvailableRow b col) col piece)) bestScore
      else minimaxValLoop child true piece rest
        (max (child alpha beta (writeCell b (getAvailableRow b col) col piece)) bestScore)
        (max alpha
          (max (child alpha beta (writeCell b (getAvailableRow b col) col piece)) bestScore))
        beta b := by
  rw [minimaxValLoop]
  simp only [if_pos h]
  rfl

theorem minimaxValLoop_cons_min (child : Int → Int → Board → Int)
    (piece : Char) (col : Fin COLS) (rest : List (Fin COLS)) (bestScore alpha beta : Int)
    (b : Board) (h : getAvailableRow b col ≠ -1) :
    minimaxValLoop child false piece (col :: rest) bestScore alpha beta b =
      if min beta
          (min (child alpha beta (writeCell b (getAvailableRow b col) col piece)) bestScore)
          ≤ alpha then
        min (child alpha beta (writeCell b (getAvailableRow b col) col piece)) bestScore
      else minimaxValLoop child false piece rest
        (min (child alpha beta (writeCell b (getAvailableRow b col) col piece)) bestScore)
        alpha
        (min beta
          (min (child alpha beta (writeCell b (getAvailableRow b col) col piece)) bestScore))
        b := by
  rw [minimaxValLoop]
  simp only [if_pos h]
  rfl

theorem plainLoop_cons_skip (child : Board → Int) (isMaximizingPlayer : Bool)
    (piece : Char) (col : Fin COLS) (rest : List (Fin COLS)) (bestScore : Int)
    (b : Board) (h : ¬ getAvailableRow b col ≠ -1) :
    plainLoop child isMaximizingPlayer piece (col :: rest) bestScore b =
      plainLoop child isMaximizingPlayer piece rest bestScore b := by
  rw [plainLoop]
  simp only [if_neg h]

theorem plainLoop_cons_max (child : Board → Int)
    (piece : Char) (col : Fin COLS) (rest : List (Fin COLS)) (bestScore : Int)
    (b : Board) (h : getAvailableRow b col ≠ -1) :
    plainLoop child true piece (col :: rest) bestScore b =
      plainLoop child true piece rest
        (max (child (writeCell b (getAvailableRow b col) col piece)) bestScore) b := by
  rw [plainLoop]
  simp only [if_pos h]
  rfl

theorem plainLoop_cons_min (child : Board → Int)
    (piece : Char) (col : Fin COLS) (rest : List (Fin COLS)) (bestScore : Int)
    (b : Board) (h : getAvailableRow b col ≠ -1) :
    plainLoop child false piece (col :: rest) bestScore b =
      plainLoop child false piece rest
        (min (child (writeCell b (getAvailableRow b col) col piece)) bestScore) b := by
  rw [plainLoop]
  simp only [if_pos h]
  rfl

theorem plainLoop_max_ge (child : Board → Int) (piece : Char) (b : Board) :
    ∀ (cols : List (Fin COLS)) (bestScore : Int),
      bestScore ≤ plainLoop child true piece cols bestScore b := by
  intro cols
  induction cols with
  | nil => intro bestScore; exact le_refl _
  | cons col rest ih =>
    intro bestScore
    by_cases h : getAvailableRow b col ≠ -1
    · rw [plainLoop_cons_max _ _ _ _ _ _ h]
      exact le_trans (le_max_right _ _) (ih _)
    · rw [plainLoop_cons_skip _ _ _ _ _ _ _ h]
      exact ih _

theorem plainLoop_min_le (child : Board → Int) (piece : Char) (b : Board) :
    ∀ (cols : List (Fin COLS)) (bestScore : Int),
      plainLoop child false piece cols bestScore b ≤ bestScore := by
  intro cols
  induction cols with
  | nil => intro bestScore; exact le_refl _
  | cons col rest ih =>
    intro bestScore
    by_cases h : getAvailableRow b col ≠ -1
    · rw [plainLoop_cons_min _ _ _ _ _ _ h]
      exact le_trans (ih _) (min_le_right _ _)
    · rw [plainLoop_cons_skip _ _ _ _ _ _ _ h]
      exact ih _

theorem minimaxValLoop_max_ge (child : Int → Int → Board → Int) (piece : Char) (b : Board) :
    ∀ (cols : List (Fin COLS)) (bestScore alpha beta : Int),
      bestScore ≤ minimaxValLoop child true piece cols bestScore alpha beta b := by
  intro cols
  induction cols with
  | nil => intro bestScore _ _; exact le_refl _
  | cons col rest ih =>
    intro bestScore alpha beta
    by_cases h : getAvailableRow b col ≠ -1
    · rw [minimaxValLoop_cons_max _ _ _ _ _ _ _ _ h]
      exact ite_cases_prop (fun v => bestScore ≤ v) _ (le_max_right _ _)
        (le_trans (le_max_right _ _) (ih _ _ _))
    · rw [minimaxValLoop_cons_skip _ _ _ _ _ _ _ _ _ h]
      exact ih _ _ _

theorem minimaxValLoop_min_le (child : Int → Int → Board → Int) (piece : Char) (b : Board) :
    ∀ (cols : List (Fin COLS)) (bestScore alpha beta : Int),
      minimaxValLoop child false piece cols bestScore alpha beta b ≤ bestScore := by
  intro cols
  induction cols with
  | nil => intro bestScore _ _; exact le_refl _
  | cons col rest ih =>
    intro bestScore alpha beta
    by_cases h : getAvailableRow b col ≠ -1
    · rw [minimaxValLoop_cons_min _ _ _ _ _ _ _ _ h]
      exact ite_cases_prop (fun v => v ≤ bestScore) _ (min_le_right _ _)
        (le_trans (ih _ _ _) (min_le_right _ _))
    · rw [minimaxValLoop_cons_skip _ _ _ _ _ _ _ _ _ h]
      exact ih _ _ _

theorem windowSound_refl (alpha beta v : Int) : WindowSound alpha beta v v :=
  ⟨fun _ => le_refl v, fun _ => le_refl v, fun _ _ => rfl⟩

/-- The maximizing loop: with the running `bestScore` at most `alpha` and no
smaller than the plain loop's, the pruned loop is sound for its window. -/
theorem maxLoop_sound (child : Int → Int → Board → Int) (childP : Board → Int) (piece : Char)
    (b : Board) (beta : Int)
    (hchild : ∀ col alpha, getAvailableRow b col ≠ -1 → -INT_MAX ≤ alpha → alpha < beta →
      WindowSound alpha beta (child alpha beta (writeCell b (getAvailableRow b col) col piece))
        (childP (writeCell b (getAvailableRow b col) col piece))) :
    ∀ (cols : List (Fin COLS)) (bestAB bestP alpha : Int),
      -INT_MAX ≤ alpha → alpha < beta → bestAB ≤ alpha → bestP ≤ bestAB →
      WindowSound alpha beta (minimaxValLoop child true piece cols bestAB alpha beta b)
        (plainLoop childP true piece cols bestP b) := by
  intro cols
  induction cols with
  | nil =>
    intro bestAB bestP alpha _ hab hb hp
    show WindowSound alpha beta bestAB bestP
    unfold WindowSound
    omega
  | cons col rest ih =>
    intro bestAB bestP alpha hlo hab hb hp
    by_cases h : getAvailableRow b col ≠ -1
    · rw [minimaxValLoop_cons_max _ _ _ _ _ _ _ _ h, plainLoop_cons_max _ _ _ _ _ _ h]
      have hs := hchild col alpha h hlo hab
      generalize child alpha beta (writeCell b (getAvailableRow b col) col piece) = s at hs ⊢
      generalize childP (writeCell b (getAvailableRow b col) col piece) = q at hs ⊢
      have hmonoP := plainLoop_max_ge childP piece b rest (max q bestP)
      unfold WindowSound at hs
      by_cases hcut : beta ≤ max alpha (max s bestAB)
      · rw [if_pos hcut]
        unfold WindowSound
        omega
      · rw [if_neg hcut]
        have hmono := minimaxValLoop_max_ge child piece b rest (max s bestAB)
          (max alpha (max s bestAB)) beta
        have hi := ih (max s bestAB) (max q bestP) (max alpha (max s bestAB))
          (by omega) (by omega) (by omega) (by omega)
        unfold WindowSound at hi ⊢
        omega
    · rw [minimaxValLoop_cons_skip _ _ _ _ _ _ _ _ _ h, plainLoop_cons_skip _ _ _ _ _ _ _ h]
      exact ih _ _ _ hlo hab hb hp

/-- The minimizing loop, symmetrically. -/
theorem minLoop_sound (child : Int → Int → Board → Int) (childP : Board → Int) (piece : Char)
    (b : Board) (alpha : Int)
    (hchild : ∀ col beta, getAvailableRow b col ≠ -1 → alpha < beta → beta ≤ INT_MAX →
      WindowSound alpha beta (child alpha beta (writeCell b (getAvailableRow b col) col piece))
        (childP (writeCell b (getAvailableRow b col) col piece))) :
    ∀ (cols : List (Fin COLS)) (bestAB bestP beta : Int),
      beta ≤ INT_MAX → alpha < beta → beta ≤ bestAB → bestAB ≤ bestP →
      WindowSound alpha beta (minimaxValLoop child false piece cols bestAB alpha beta b)
        (plainLoop childP false piece cols bestP b) := by
  intro cols
  induction cols with
  | nil =>
    intro bestAB bestP beta _ hab hb hp
    show WindowSound alpha beta bestAB bestP
    unfold WindowSound
    omega
  | cons col rest ih =>
    intro bestAB bestP beta hhi hab hb hp
    by_cases h : getAvailableRow b col ≠ -1
    · rw [minimaxValLoop_cons_min _ _ _ _ _ _ _ _ h, plainLoop_cons_min _ _ _ _ _ _ h]
      have hs := hchild col beta h hab hhi
      generalize child alpha beta (writeCell b (getAvailableRow b col) col piece) = s at hs ⊢
      generalize childP (writeCell b (getAvailableRow b col) col piece) = q at hs ⊢
      have hmonoP := plainLoop_min_le childP piece b rest (min q bestP)
      unfold WindowSound at hs
      by_cases hcut : min beta (min s bestAB) ≤ alpha
      · rw [if_pos hcut]
        unfold WindowSound
        omega
      · rw [if_neg hcut]
        have hmono := minimaxValLoop_min_le child piece b rest (min s bestAB) alpha
          (min beta (min s bestAB))
        have hi := ih (min s bestAB) (min q bestP) (min beta (min s bestAB))
          (by omega) (by omega) (by omega) (by omega)
        unfold WindowSound at hi ⊢
        omega
    · rw [minimaxValLoop_cons_skip _ _ _ _ _ _ _ _ _ h, plainLoop_cons_skip _ _ _ _ _ _ _ h]
      exact ih _ _ _ hhi hab hb hp

theorem plainMinimaxAux_no_win {b : Board} (fuel : Nat) (depth : Int) (isMaximizingPlayer : Bool)
    (hO : checkWin b AI_PIECE = false) (hX : checkWin b PLAYER_PIECE = false) :
    plainMinimaxAux (fuel + 1) depth isMaximizingPlayer b =
      if depth = 0 then evaluateBoard b (if isMaximizingPlayer then AI_PIECE else PLAYER_PIECE)
      else plainLoop (plainMinimaxAux fuel (depth - 1) (!isMaximizingPlayer)) isMaximizingPlayer
        (if isMaximizingPlayer then AI_PIECE else PLAYER_PIECE) (List.finRange COLS)
        (if isMaximizingPlayer then -INT_MAX else INT_MAX) b := by
  rw [plainMinimaxAux]
  simp only [hO, hX, Bool.false_eq_true, if_false]

/-- The pruned search is sound for every window inside `[-INT_MAX, INT_MAX]`. -/
theorem minimaxVal_sound : ∀ (fuel : Nat) (depth : Int) (isMaximizingPlayer : Bool)
    (alpha beta : Int) (b : Board), emptyCount b < fuel →
    -INT_MAX ≤ alpha → alpha < beta → beta ≤ INT_MAX →
    WindowSound alpha beta (minimaxVal fuel depth isMaximizingPlayer alpha beta b)
      (plainMinimaxAux fuel depth isMaximizingPlayer b) := by
  intro fuel
  induction fuel with
  | zero => intro _ _ _ _ b h; exact absurd h (Nat.not_lt_zero _)
  | succ fuel ih =>
    intro depth isMaximizingPlayer alpha beta b hfuel hlo hab hhi
    by_cases h1 : checkWin b AI_PIECE = true
    · rw [minimaxVal, plainMinimaxAux]
      simp only [h1, if_true]
      exact windowSound_refl _ _ _
    by_cases h2 : checkWin b PLAYER_PIECE = true
    · rw [minimaxVal, plainMinimaxAux]
      simp only [h1, h2, if_true, if_false, Bool.false_eq_true]
      exact windowSound_refl _ _ _
    have hO := checkWin_eq_false h1
    have hX := checkWin_eq_false h2
    rw [minimaxVal_no_win _ _ _ _ _ hO hX, plainMinimaxAux_no_win _ _ _ hO hX]
    by_cases h3 : depth = 0
    · rw [if_pos h3, if_pos h3]
      exact windowSound_refl _ _ _
    rw [if_neg h3, if_neg h3]
    cases isMaximizingPlayer
    · apply minLoop_sound _ _ _ _ _ _ _ _ _ _ hhi hab hhi (le_refl _)
      intro col beta2 hcol hab2 hhi2
      have hcount := emptyCount_writeCell hcol (currentPiece_ne_EMPTY false)
      exact ih _ _ _ _ _ (by omega) hlo hab2 hhi2
    · apply maxLoop_sound _ _ _ _ _ _ _ _ _ _ hlo hab hlo (le_refl _)
      intro col alpha2 hcol hlo2 hab2
      have hcount := emptyCount_writeCell hcol (currentPiece_ne_EMPTY true)
      exact ih _ _ _ _ _ (by omega) hlo2 hab2 hhi

theorem plainLoop_closed (P : Int → Prop)
    (hmax : ∀ x y, P x → P y → P (max x y)) (hmin : ∀ x y, P x → P y → P (min x y))
    (child : Board → Int) (isMaximizingPlayer : Bool) (piece : Char) (b : Board)
    (hchild : ∀ col, getAvailableRow b col ≠ -1 →
      P (child (writeCell b (getAvailableRow b col) col piece))) :
    ∀ (cols : List (Fin COLS)) (bestScore : Int), P bestScore →
      P (plainLoop child isMaximizingPlayer piece cols bestScore b) := by
  intro cols
  induction cols with
  | nil => intro bestScore h; exact h
  | cons col rest ih =>
    intro bestScore hbest
    by_cases hrow : getAvailableRow b col ≠ -1
    · cases isMaximizingPlayer
      · rw [plainLoop_cons_min _ _ _ _ _ _ hrow]
        exact ih _ (hmin _ _ (hchild col hrow) hbest)
      · rw [plainLoop_cons_max _ _ _ _ _ _ hrow]
        exact ih _ (hmax _ _ (hchild col hrow) hbest)
    · rw [plainLoop_cons_skip _ _ _ _ _ _ _ hrow]
      exact ih _ hbest

theorem plainLoop_congr (child1 child2 : Board → Int) (isMaximizingPlayer : Bool)
    (piece : Char) (b : Board)
    (hchild : ∀ col, getAvailableRow b col ≠ -1 →
      child1 (writeCell b (getAvailableRow b col) col piece) =
        child2 (writeCell b (getAvailableRow b col) col piece)) :
    ∀ (cols : List (Fin COLS)) (bestScore : Int),
      plainLoop child1 isMaximizingPlayer piece cols bestScore b =
        plainLoop child2 isMaximizingPlayer piece cols bestScore b := by
  intro cols
  induction cols with
  | nil => intro bestScore; rfl
  | cons col rest ih =>
    intro bestScore
    by_cases hrow : getAvailableRow b col ≠ -1
    · cases isMaximizingPlayer
      · rw [plainLoop_cons_min _ _ _ _ _ _ hrow, plainLoop_cons_min _ _ _ _ _ _ hrow,
          hchild col hrow]
        exact ih _
      · rw [plainLoop_cons_max _ _ _ _ _ _ hrow, plainLoop_cons_max _ _ _ _ _ _ hrow,
          hchild col hrow]
        exact ih _
    · rw [plainLoop_cons_skip _ _ _ _ _ _ _ hrow, plainLoop_cons_skip _ _ _ _ _ _ _ hrow]
      exact ih _

/-- The plain search does not depend on the nesting bound once the bound exceeds
the number of empty cells. -/
theorem plainMinimaxAux_fuel : ∀ (fuel1 fuel2 : Nat) (depth : Int) (isMaximizingPlayer : Bool)
    (b : Board), emptyCount b < fuel1 → emptyCount b < fuel2 →
    plainMinimaxAux fuel1 depth isMaximizingPlayer b =
      plainMinimaxAux fuel2 depth isMaximizingPlayer b := by
  intro fuel1
  induction fuel1 with
  | zero => intro _ _ _ b h; exact absurd h (Nat.not_lt_zero _)
  | succ fuel1 ih =>
    intro fuel2 depth isMaximizingPlayer b h1 h2
    cases fuel2 with
    | zero => exact absurd h2 (Nat.not_lt_zero _)
    | succ fuel2 =>
      rw [plainMinimaxAux, plainMinimaxAux]
      split
      · rfl
      split
      · rfl
      split
      · rfl
      apply plainLoop_congr
      intro col hcol
      have hcount := emptyCount_writeCell hcol (currentPiece_ne_EMPTY isMaximizingPlayer)
      exact ih _ _ _ _ (by omega) (by omega)

theorem plainMinimaxAux_bounds : ∀ (fuel : Nat) (depth : Int) (isMaximizingPlayer : Bool)
    (b : Board), -INT_MAX ≤ plainMinimaxAux fuel depth isMaximizingPlayer b ∧
      plainMinimaxAux fuel depth isMaximizingPlayer b ≤ INT_MAX := by
  have hI : INT_MAX = 2147483647 := rfl
  intro fuel
  induction fuel with
  | zero =>
    intro _ _ _
    rw [plainMinimaxAux]
    omega
  | succ fuel ih =>
    intro depth isMaximizingPlayer b
    rw [plainMinimaxAux]
    split
    · omega
    split
    · omega
    split
    · rw [evaluateBoard_eq]
      split <;> split <;> omega
    apply plainLoop_closed (fun v => -INT_MAX ≤ v ∧ v ≤ INT_MAX)
    · intro x y hx hy
      exact ⟨le_trans hx.1 (le_max_left _ _), max_le hx.2 hy.2⟩
    · intro x y hx hy
      exact ⟨le_min hx.1 hy.1, le_trans (min_le_left _ _) hx.2⟩
    · intro col _
      exact ih _ _ _
    · cases isMaximizingPlayer
      · exact ⟨by simp only [Bool.false_eq_true, if_false]; omega, by simp⟩
      · exact ⟨by simp, by simp only [if_true]; omega⟩

theorem plainMinimax_unfold (depth : Int) (isMaximizingPlayer : Bool) (b : Board) :
    plainMinimax depth isMaximizingPlayer b =
      if checkWin b AI_PIECE then 1000
      else if checkWin b PLAYER_PIECE then -1000
      else if depth = 0 then
        evaluateBoard b (if isMaximizingPlayer then AI_PIECE else PLAYER_PIECE)
      else plainLoop (plainMinimax (depth - 1) (!isMaximizingPlayer)) isMaximizingPlayer
        (if isMaximizingPlayer then AI_PIECE else PLAYER_PIECE) (List.finRange COLS)
        (if isMaximizingPlayer then -INT_MAX else INT_MAX) b := by
  unfold plainMinimax
  rw [plainMinimaxAux]
  split
  · rfl
  split
  · rfl
  split
  · rfl
  apply plainLoop_congr
  intro col hcol
  have hcount := emptyCount_writeCell hcol (currentPiece_ne_EMPTY isMaximizingPlayer)
  have hle := emptyCount_le b
  exact plainMinimaxAux_fuel _ _ _ _ _ (by omega) (by omega)

/-! ## Positions too young for a win -/

theorem four_le_pieceCount {b : Board} {piece : Char} (cells : List (Fin ROWS × Fin COLS))
    (hlen : cells.length = 4) (hnd : cells.Nodup) (hall : ∀ rc ∈ cells, b rc.1 rc.2 = piece) :
    4 ≤ pieceCount b piece := by
  unfold pieceCount
  rw [← hlen, ← List.toFinset_card_of_nodup hnd]
  apply Finset.card_le_card
  intro rc hrc
  simp only [Finset.mem_filter, Finset.mem_univ, true_and]
  exact hall rc (List.mem_toFinset.1 hrc)

theorem checkWin_pieceCount {b : Board} {piece : Char} (h : checkWin b piece = true) :
    4 ≤ pieceCount b piece := by
  obtain ⟨row, col, hat⟩ := (checkWin_iff b piece).1 h
  unfold checkWinAt at hat
  simp only [Bool.and_eq_true, Bool.or_eq_true, beq_iff_eq, dite_false_eq_true] at hat
  obtain ⟨h0, ((⟨hb, ⟨h1, h2⟩, h3⟩ | ⟨hb, ⟨h1, h2⟩, h3⟩) | ⟨hb, ⟨h1, h2⟩, h3⟩) |
    ⟨hb, ⟨h1, h2⟩, h3⟩⟩ := hat
  · exact four_le_pieceCount
      [(row, col), (row, ⟨col.val + 1, by omega⟩), (row, ⟨col.val + 2, by omega⟩),
        (row, ⟨col.val + 3, hb⟩)]
      rfl (by simp [Fin.ext_iff]) (by simp [h0, h1, h2, h3])
  · exact four_le_pieceCount
      [(row, col), (⟨row.val + 1, by omega⟩, col), (⟨row.val + 2, by omega⟩, col),
        (⟨row.val + 3, hb⟩, col)]
      rfl (by simp [Fin.ext_iff]) (by simp [h0, h1, h2, h3])
  · exact four_le_pieceCount
      [(row, col), (⟨row.val + 1, by omega⟩, ⟨col.val + 1, by omega⟩),
        (⟨row.val + 2, by omega⟩, ⟨col.val + 2, by omega⟩), (⟨row.val + 3, hb.1⟩, ⟨col.val + 3, hb.2⟩)]
      rfl (by simp [Fin.ext_iff]) (by simp [h0, h1, h2, h3])
  · exact four_le_pieceCount
      [(row, col), (⟨row.val + 1, by omega⟩, ⟨col.val - 1, by omega⟩),
        (⟨row.val + 2, by omega⟩, ⟨col.val - 2, by omega⟩),
        (⟨row.val + 3, hb.1⟩, ⟨col.val - 3, by omega⟩)]
      rfl (by simp [Fin.ext_iff]) (by simp [h0, h1, h2, h3])

theorem pieceCount_setCell_same {b : Board} {row : Fin ROWS} {col : Fin COLS} {piece : Char}
    (hcell : b row col = EMPTY) (hp : piece ≠ EMPTY) :
    pieceCount (setCell b row col piece) piece = pieceCount b piece + 1 := by
  unfold pieceCount
  have hins : Finset.univ.filter
        (fun rc : Fin ROWS × Fin COLS => setCell b row col piece rc.1 rc.2 = piece) =
      insert (row, col)
        (Finset.univ.filter (fun rc : Fin ROWS × Fin COLS => b rc.1 rc.2 = piece)) := by
    ext ⟨i, j⟩
    simp only [Finset.mem_filter, Finset.mem_univ, true_and, Finset.mem_insert, Prod.mk.injEq,
      setCell_apply]
    by_cases h : i = row ∧ j = col
    · simp [h]
    · simp [h]
  rw [hins, Finset.card_insert_of_not_mem]
  simp only [Finset.mem_filter, Finset.mem_univ, true_and, hcell]
  exact fun h => hp h.symm

theorem pieceCount_setCell_other {b : Board} {row : Fin ROWS} {col : Fin COLS}
    {piece other : Char} (hcell : b row col = EMPTY) (ho : other ≠ EMPTY) (hne : other ≠ piece) :
    pieceCount (setCell b row col piece) other = pieceCount b other := by
  unfold pieceCount
  congr 1
  ext ⟨i, j⟩
  simp only [Finset.mem_filter, Finset.mem_univ, true_and, setCell_apply]
  by_cases h : i = row ∧ j = col
  · obtain ⟨rfl, rfl⟩ := h
    simp only [and_self, if_true, hcell]
    exact ⟨fun h => absurd h.symm hne, fun h => absurd h.symm ho⟩
  · simp [h]

/-- While neither side can have four pieces on the board within the remaining
depth, the value of the search is `0`. -/
theorem minimaxVal_quiet : ∀ (fuel : Nat) (depth : Int) (isMaximizingPlayer : Bool)
    (alpha beta : Int) (b : Board), emptyCount b < fuel → 0 ≤ depth →
    depth ≤ (emptyCount b : Int) →
    (pieceCount b AI_PIECE : Int) + (depth + (if isMaximizingPlayer then 1 else 0)) / 2 ≤ 3 →
    (pieceCount b PLAYER_PIECE : Int) + (depth + (if isMaximizingPlayer then 0 else 1)) / 2 ≤ 3 →
    minimaxVal fuel depth isMaximizingPlayer alpha beta b = 0 := by
  intro fuel
  induction fuel with
  | zero => intro _ _ _ _ b h; exact absurd h (Nat.not_lt_zero _)
  | succ fuel ih =>
    intro depth isMaximizingPlayer alpha beta b hfuel hd hcells hcO hcX
    have hO : checkWin b AI_PIECE = false := by
      apply checkWin_eq_false
      intro hw
      have := checkWin_pieceCount hw
      cases isMaximizingPlayer <;> simp only [Bool.false_eq_true, if_true, if_false] at hcO <;>
        omega
    have hX : checkWin b PLAYER_PIECE = false := by
      apply checkWin_eq_false
      intro hw
      have := checkWin_pieceCount hw
      cases isMaximizingPlayer <;> simp only [Bool.false_eq_true, if_true, if_false] at hcX <;>
        omega
    rw [minimaxVal_no_win _ _ _ _ _ hO hX]
    by_cases h3 : depth = 0
    · rw [if_pos h3]
      exact evaluateBoard_no_win isMaximizingPlayer hO hX
    rw [if_neg h3]
    have hpos : 0 < emptyCount b := by omega
    obtain ⟨k, hk⟩ := exists_available hpos
    apply minimaxValLoop_closed_init (fun v => v = 0)
    · intro x y hx hy
      rw [hx, hy]
      rfl
    · intro x y hx hy
      rw [hx, hy]
      rfl
    · intro col a2 b2 hcol
      have hcount := emptyCount_writeCell hcol (currentPiece_ne_EMPTY isMaximizingPlayer)
      obtain ⟨row, hfirst, hval⟩ := getAvailableRow_ne_neg_one hcol
      have hcell := (firstEmptyRow_eq_some hfirst).1
      rw [hval, writeCell_coe] at hcount ⊢
      cases isMaximizingPlayer
      · have e1 := @pieceCount_setCell_same b row col PLAYER_PIECE hcell (by decide)
        have e2 := @pieceCount_setCell_other b row col PLAYER_PIECE AI_PIECE hcell
          (by decide) (by decide)
        simp only [Bool.false_eq_true, if_false] at hcO hcX hcount e1 e2 ⊢
        apply ih _ _ _ _ _ (by omega) (by omega) (by omega)
        · simp only [Bool.not_false, if_true, e2]
          omega
        · simp only [Bool.not_false, if_true, e1]
          push_cast
          omega
      · have e1 := @pieceCount_setCell_same b row col AI_PIECE hcell (by decide)
        have e2 := @pieceCount_setCell_other b row col AI_PIECE PLAYER_PIECE hcell
          (by decide) (by decide)
        simp only [if_true] at hcO hcX hcount e1 e2 ⊢
        apply ih _ _ _ _ _ (by omega) (by omega) (by omega)
        · simp only [Bool.not_true, Bool.false_eq_true, if_false, e1]
          push_cast
          omega
        · simp only [Bool.not_true, Bool.false_eq_true, if_false, e2]
          omega
    · intro s hs
      rw [hs]
      cases isMaximizingPlayer <;> simp [INT_MAX]
    · exact ⟨k, List.mem_finRange k, hk⟩

/-! ## The move selector evaluated on three boards -/

/-- A first column that is available, beats the running best score and is not
beaten by any later available column is the one the loop returns. -/
theorem getBestMoveValLoop_head (b : Board) (col : Fin COLS) (rest : List (Fin COLS))
    (bestCol bestScore : Int) (hav : getAvailableRow b col ≠ -1)
    (hgt : moveScoreVal b col > bestScore)
    (hmax : ∀ k ∈ rest, getAvailableRow b k ≠ -1 → moveScoreVal b k ≤ moveScoreVal b col) :
    getBestMoveValLoop (col :: rest) bestCol bestScore b = (col.val : Int) := by
  have hs : minimaxVal (ROWS * COLS + 1) MAX_DEPTH false (-INT_MAX) INT_MAX
      (writeCell b (getAvailableRow b col) col AI_PIECE) = moveScoreVal b col := rfl
  rw [getBestMoveValLoop]
  simp only [if_pos hav, hs, if_pos hgt]
  rcases getBestMoveValLoop_spec b rest (col.val : Int) (moveScoreVal b col) with
    ⟨h1, _⟩ | ⟨pre, cf, post, h1, _, h3, h4, _, _⟩
  · exact h1
  · have hmem : cf ∈ rest := by
      rw [h1]
      simp
    exact absurd (hmax cf hmem h3) (not_le.2 h4)

/-- After the first move on the empty board no side can have four pieces within
the search depth: every column scores `0`. -/
theorem moveScoreVal_resetBoard (k : Fin COLS) : moveScoreVal resetBoard k = 0 := by
  have hav : getAvailableRow resetBoard k ≠ -1 := by
    revert k
    decide
  have hcount := emptyCount_writeCell hav (show AI_PIECE ≠ EMPTY by decide)
  obtain ⟨row, hfirst, hval⟩ := getAvailableRow_ne_neg_one hav
  have hcell := (firstEmptyRow_eq_some hfirst).1
  unfold moveScoreVal
  rw [hval, writeCell_coe] at hcount ⊢
  have e1 := @pieceCount_setCell_same resetBoard row k AI_PIECE hcell (by decide)
  have e2 := @pieceCount_setCell_other resetBoard row k AI_PIECE PLAYER_PIECE hcell
    (by decide) (by decide)
  have hO : pieceCount resetBoard AI_PIECE = 0 := by decide
  have hX : pieceCount resetBoard PLAYER_PIECE = 0 := by decide
  have hE : emptyCount resetBoard = 42 := by decide
  have hM : MAX_DEPTH = 4 := rfl
  rw [hM]
  apply minimaxVal_quiet _ _ _ _ _ _ (Nat.lt_succ_of_le (emptyCount_le _)) (by omega) (by omega)
  · simp only [Bool.false_eq_true, if_false, e1, hO]
    decide
  · simp only [Bool.false_eq_true, if_false, e2, hX]
    decide

theorem getBestMoveVal_resetBoard :
    getBestMoveValLoop sortedCols (-1) (-INT_MAX) resetBoard = 3 := by
  have hcols : sortedCols = 3 :: [2, 4, 1, 5, 0, 6] := by decide
  rw [hcols]
  exact getBestMoveValLoop_head resetBoard 3 _ _ _ (by decide)
    (by rw [moveScoreVal_resetBoard]; decide)
    (fun k _ _ => by rw [moveScoreVal_resetBoard, moveScoreVal_resetBoard])

theorem moveScoreVal_le (b : Board) (k : Fin COLS) (hav : getAvailableRow b k ≠ -1)
    (hcells : 5 ≤ emptyCount b) : moveScoreVal b k ≤ 1000 := by
  have hcount := emptyCount_writeCell hav (show AI_PIECE ≠ EMPTY by decide)
  have hle := emptyCount_le b
  have hM : MAX_DEPTH = 4 := rfl
  unfold moveScoreVal
  rw [hM]
  rcases minimaxVal_range (ROWS * COLS + 1) 4 false (-INT_MAX) INT_MAX
      (writeCell b (getAvailableRow b k) k AI_PIECE) (Nat.lt_succ_of_le (emptyCount_le _))
      (by omega) (by omega) with
    h | h | h <;> rw [h] <;> decide

theorem moveScoreVal_ge (b : Board) (k : Fin COLS) (hav : getAvailableRow b k ≠ -1)
    (hcells : 5 ≤ emptyCount b) : -1000 ≤ moveScoreVal b k := by
  have hcount := emptyCount_writeCell hav (show AI_PIECE ≠ EMPTY by decide)
  have hle := emptyCount_le b
  have hM : MAX_DEPTH = 4 := rfl
  unfold moveScoreVal
  rw [hM]
  rcases minimaxVal_range (ROWS * COLS + 1) 4 false (-INT_MAX) INT_MAX
      (writeCell b (getAvailableRow b k) k AI_PIECE) (Nat.lt_succ_of_le (emptyCount_le _))
      (by omega) (by omega) with
    h | h | h <;> rw [h] <;> decide

/-- The loop of `getBestMove` ends with the sentinel exactly when no available
column scores above `-INT_MAX`. -/
theorem getBestMoveVal_eq_neg_one_iff (b : Board) :
    getBestMoveValLoop sortedCols (-1) (-INT_MAX) b = -1 ↔
      ∀ k, getAvailableRow b k ≠ -1 → moveScoreVal b k ≤ -INT_MAX := by
  have hall : ∀ j : Fin COLS, j ∈ sortedCols := by decide
  rcases getBestMoveValLoop_spec b sortedCols (-1) (-INT_MAX) with
    ⟨h1, h2⟩ | ⟨_, cf, _, _, h2, h3, h4, _, _⟩
  · exact ⟨fun _ k hk => h2 k (hall k) hk, fun _ => h1⟩
  · constructor
    · intro h
      rw [h2] at h
      omega
    · intro h
      exact absurd (h cf h3) (not_le.2 h4)

theorem getBestMoveVal_ne_neg_one (b : Board) (hcells : 5 ≤ emptyCount b) :
    getBestMoveValLoop sortedCols (-1) (-INT_MAX) b ≠ -1 := by
  intro h
  obtain ⟨k, hk⟩ := exists_available (show 0 < emptyCount b by omega)
  have h1 := (getBestMoveVal_eq_neg_one_iff b).1 h k hk
  have h2 := moveScoreVal_ge b k hk hcells
  have hI : INT_MAX = 2147483647 := rfl
  omega

theorem gravity_empty_column {b : Board} {c : Fin COLS} (hg : Gravity b)
    (h0 : b 0 c = EMPTY) : ∀ r, b r c = EMPTY := by
  intro r
  by_contra hne
  rcases Nat.eq_zero_or_pos r.val with hr | hr
  · exact hne ((Fin.ext hr : r = 0) ▸ h0)
  · exact hg c r 0 hr hne h0

theorem emptyCount_ge_of_empty_column {b : Board} {c : Fin COLS} (h : ∀ r, b r c = EMPTY) :
    6 ≤ emptyCount b := by
  unfold emptyCount
  have hcard : (Finset.univ.image (fun r : Fin ROWS => (r, c))).card = 6 := by
    rw [Finset.card_image_of_injective _ (fun r1 r2 heq => (Prod.mk.inj heq).1)]
    rfl
  calc 6 = (Finset.univ.image (fun r : Fin ROWS => (r, c))).card := hcard.symm
    _ ≤ _ := by
      apply Finset.card_le_card
      intro rc hrc
      obtain ⟨r, _, rfl⟩ := Finset.mem_image.1 hrc
      simp only [Finset.mem_filter, Finset.mem_univ, true_and]
      exact h r

set_option maxRecDepth 1000000 in
theorem moveScoreVal_threeInRow_center : moveScoreVal threeInRow 3 = 1000 := by decide!

theorem getBestMoveVal_threeInRow :
    getBestMoveValLoop sortedCols (-1) (-INT_MAX) threeInRow = 3 := by
  have hcols : sortedCols = 3 :: [2, 4, 1, 5, 0, 6] := by decide
  rw [hcols]
  refine getBestMoveValLoop_head threeInRow 3 _ _ _ (by decide)
    (by rw [moveScoreVal_threeInRow_center]; decide) (fun k _ hav => ?_)
  rw [moveScoreVal_threeInRow_center]
  exact moveScoreVal_le threeInRow k hav (by decide)

theorem minimaxVal_of_ai_win {b : Board} (fuel : Nat) (depth : Int) (isMaximizingPlayer : Bool)
    (alpha beta : Int) (hwin : checkWin b AI_PIECE = true) :
    minimaxVal (fuel + 1) depth isMaximizingPlayer alpha beta b = 1000 := by
  rw [minimaxVal]
  simp only [hwin, if_true]

theorem minimaxVal_threeInRow_center :
    minimaxVal (ROWS * COLS + 1) MAX_DEPTH false (-INT_MAX) INT_MAX
      (dropPiece 3 AI_PIECE threeInRow).2 = 1000 := by
  have hdrop : dropPiece 3 AI_PIECE threeInRow =
      (true, writeCell threeInRow (getAvailableRow threeInRow 3) 3 AI_PIECE) :=
    @dropPiece_of_available threeInRow 3 AI_PIECE (by decide)
  rw [hdrop]
  exact moveScoreVal_threeInRow_center

theorem minimaxVal_threeInRow_left :
    minimaxVal (ROWS * COLS + 1) MAX_DEPTH false (-INT_MAX) INT_MAX
      (dropPiece 0 AI_PIECE threeInRow).2 = 1000 :=
  minimaxVal_of_ai_win _ _ _ _ _ (by decide)

theorem minimaxVal_threeInRow_right :
    minimaxVal (ROWS * COLS + 1) MAX_DEPTH false (-INT_MAX) INT_MAX
      (dropPiece 4 AI_PIECE threeInRow).2 = 1000 :=
  minimaxVal_of_ai_win _ _ _ _ _ (by decide)

set_option maxRecDepth 1000000 in
theorem getBestMoveVal_drawnButTwo :
    getBestMoveValLoop sortedCols (-1) (-INT_MAX) drawnButTwo = -1 := by decide!

theorem getBestMove_threeInRow : getBestMove threeInRow = some (3, threeInRow) := by
  rw [getBestMove_eq, getBestMoveVal_threeInRow]

/-- The board `drawnButTwo` still has two empty cells, both in column 3, so
column 3 is available at row 4; yet `getBestMove` returns the sentinel `-1`. -/
theorem getBestMove_drawnButTwo :
    getBestMove drawnButTwo = some (-1, drawnButTwo) ∧
    ¬ boardFull drawnButTwo ∧ getAvailableRow drawnButTwo 3 = 4 := by
  refine ⟨?_, by decide, by decide⟩
  rw [getBestMove_eq, getBestMoveVal_drawnButTwo]

/-! ## Placement: `dropPiece` and `getAvailableRow` -/

/-- C7: on every board, for a column of the grid that holds no empty cell and
for every piece, `dropPiece` returns `false` and leaves the board as it was,
and `getAvailableRow` returns `-1`. -/
theorem dropPiece_full_column (b : Board) (c : Fin COLS) (piece : Char)
    (hfull : ∀ r, b r c ≠ EMPTY) :
    dropPiece (c.val : Int) piece b = (false, b) ∧ getAvailableRow b c = -1 := by
  have hnone := firstEmptyRow_of_full hfull
  refine ⟨?_, getAvailableRow_of_none hnone⟩
  rw [dropPiece_coe, hnone]

theorem dropPiece_full_column_witness :
    (∀ r, ofRows [['X'], ['O'], ['X'], ['O'], ['X'], ['O']] r 0 ≠ EMPTY) ∧
    dropPiece ((0 : Fin COLS).val : Int) 'X' (ofRows [['X'], ['O'], ['X'], ['O'], ['X'], ['O']])
        = (false, ofRows [['X'], ['O'], ['X'], ['O'], ['X'], ['O']]) ∧
      getAvailableRow (ofRows [['X'], ['O'], ['X'], ['O'], ['X'], ['O']]) 0 = -1 :=
  ⟨by decide, dropPiece_full_column _ 0 'X' (by decide)⟩

/-- C8: on every board and for every piece, a column index below `0` or at
least `COLS` makes `dropPiece` return `false` with every cell unchanged. -/
theorem dropPiece_out_of_range (b : Board) (col : Int) (piece : Char)
    (hcol : col < 0 ∨ col ≥ 7) :
    (dropPiece col piece b).1 = false ∧ ∀ r c, (dropPiece col piece b).2 r c = b r c := by
  have h : col < 0 ∨ col ≥ (COLS : Int) := hcol
  have hdrop : dropPiece col piece b = (false, b) := by
    unfold dropPiece
    rw [dif_pos h]
  rw [hdrop]
  exact ⟨rfl, fun _ _ => rfl⟩

theorem dropPiece_out_of_range_witness :
    ((7 : Int) < 0 ∨ (7 : Int) ≥ 7) ∧
    ((dropPiece 7 'X' resetBoard).1 = false ∧
      ∀ r c, (dropPiece 7 'X' resetBoard).2 r c = resetBoard r c) :=
  ⟨by decide, dropPiece_out_of_range resetBoard 7 'X' (by decide)⟩

/-- C9: on every board, for a column of the grid with an empty cell,
`getAvailableRow` returns the least row whose cell in that column is empty, and
`dropPiece` returns `true` and yields the board that holds the piece at exactly
that cell and agrees with the old board everywhere else. -/
theorem dropPiece_lowest_empty (b : Board) (c : Fin COLS) (piece : Char)
    (hroom : ∃ r, b r c = EMPTY) :
    ∃ row : Fin ROWS,
      b row c = EMPTY ∧ (∀ r, b r c = EMPTY → row ≤ r) ∧
      getAvailableRow b c = (row.val : Int) ∧
      (dropPiece (c.val : Int) piece b).1 = true ∧
      ∀ i j, (dropPiece (c.val : Int) piece b).2 i j =
        if i = row ∧ j = c then piece else b i j := by
  obtain ⟨r0, hr0⟩ := hroom
  obtain ⟨row, hrow⟩ := firstEmptyRow_of_empty hr0
  have hspec := firstEmptyRow_eq_some hrow
  refine ⟨row, hspec.1, ?_, getAvailableRow_of_some hrow, ?_, ?_⟩
  · intro r hr
    by_contra hlt
    exact hspec.2 r (not_le.1 hlt) hr
  · rw [dropPiece_coe, hrow]
  · intro i j
    rw [dropPiece_coe, hrow]
    rfl

theorem dropPiece_lowest_empty_witness :
    (∃ r, ofRows [['.', 'O', 'O', 'O'], ['.', 'X']] r 1 = EMPTY) ∧
    ∃ row : Fin ROWS,
      ofRows [['.', 'O', 'O', 'O'], ['.', 'X']] row 1 = EMPTY ∧
      (∀ r, ofRows [['.', 'O', 'O', 'O'], ['.', 'X']] r 1 = EMPTY → row ≤ r) ∧
      getAvailableRow (ofRows [['.', 'O', 'O', 'O'], ['.', 'X']]) 1 = (row.val : Int) ∧
      (dropPiece ((1 : Fin COLS).val : Int) 'X' (ofRows [['.', 'O', 'O', 'O'], ['.', 'X']])).1
        = true ∧
      ∀ i j, (dropPiece ((1 : Fin COLS).val : Int) 'X'
          (ofRows [['.', 'O', 'O', 'O'], ['.', 'X']])).2 i j =
        if i = row ∧ j = (1 : Fin COLS) then 'X' else ofRows [['.', 'O', 'O', 'O'], ['.', 'X']] i j :=
  ⟨⟨2, by decide⟩, dropPiece_lowest_empty _ 1 'X' ⟨2, by decide⟩⟩

/-- C6: on every board reachable from the empty board by successful drops, for
every column of the grid that still has an empty cell and every piece in
`{X, O}`, `dropPiece` succeeds and undoing it gives back the board before the
drop: both the assignment `board[row][col] = EMPTY` of the search, with `row`
the value `getAvailableRow` reported before the drop, and the clearing of the
highest occupied cell of the column do so. -/
theorem dropPiece_undo_restores (b : Board) (c : Fin COLS) (piece : Char)
    (hb : Reachable b) (hp : piece = PLAYER_PIECE ∨ piece = AI_PIECE)
    (hroom : ∃ r, b r c = EMPTY) :
    (dropPiece (c.val : Int) piece b).1 = true ∧
    writeCell (dropPiece (c.val : Int) piece b).2 (getAvailableRow b c) c EMPTY = b ∧
    undo (dropPiece (c.val : Int) piece b).2 c = b := by
  obtain ⟨r0, hr0⟩ := hroom
  obtain ⟨row, hrow⟩ := firstEmptyRow_of_empty hr0
  have hspec := firstEmptyRow_eq_some hrow
  rw [dropPiece_coe, hrow, getAvailableRow_of_some hrow, writeCell_coe]
  exact ⟨rfl, setCell_restore piece hspec.1,
    undo_setCell (gravity_of_reachable hb) hrow (piece_ne_EMPTY hp)⟩

theorem dropPiece_undo_restores_witness :
    Reachable (dropPiece 3 AI_PIECE resetBoard).2 ∧
    (dropPiece ((3 : Fin COLS).val : Int) PLAYER_PIECE (dropPiece 3 AI_PIECE resetBoard).2).1
      = true ∧
    writeCell
        (dropPiece ((3 : Fin COLS).val : Int) PLAYER_PIECE (dropPiece 3 AI_PIECE resetBoard).2).2
        (getAvailableRow (dropPiece 3 AI_PIECE resetBoard).2 3) 3 EMPTY
      = (dropPiece 3 AI_PIECE resetBoard).2 ∧
    undo (dropPiece ((3 : Fin COLS).val : Int) PLAYER_PIECE (dropPiece 3 AI_PIECE resetBoard).2).2 3
      = (dropPiece 3 AI_PIECE resetBoard).2 :=
  ⟨Reachable.drop _ 3 AI_PIECE Reachable.reset (by decide),
   dropPiece_undo_restores _ 3 PLAYER_PIECE
    (Reachable.drop _ 3 AI_PIECE Reachable.reset (by decide))
    (Or.inl rfl) ⟨5, by decide⟩⟩

/-! ## Win detection -/

/-- C1: for every board and every piece, `checkWin` returns `true` exactly when
some start cell and one of the four directions (0,+1), (+1,0), (+1,+1), (+1,-1)
give four cells, all inside the grid, that all hold the piece. -/
theorem checkWin_iff_lineOfFour (b : Board) (piece : Char) :
    checkWin b piece = true ↔
      ∃ (r c : Int), ∃ d ∈ directions, lineOfFour b piece r c d := by
  rw [checkWin_iff]
  constructor
  · rintro ⟨row, col, h⟩
    exact ⟨(row.val : Int), (col.val : Int), (checkWinAt_iff b piece row col).1 h⟩
  · rintro ⟨r, c, d, hd, hline⟩
    have h0 := ((lineOfFour_iff b piece r c d).1 hline).1
    obtain ⟨row, col, rfl, rfl, _⟩ := (cellAt_eq_some_iff b r c piece).1 h0
    exact ⟨row, col, (checkWinAt_iff b piece row col).2 ⟨d, hd, hline⟩⟩

/-! ## Search -/

/-- C2: on every board on which the AI piece `O` has four in a row, `minimax`
returns `+1000` (and the board untouched) for every depth, both values of
`isMaximizingPlayer` and all `alpha`, `beta`, whether or not `X` has four in a
row as well. -/
theorem minimax_ai_win (b : Board) (depth : Int) (isMaximizingPlayer : Bool)
    (alpha beta : Int) (hwin : checkWin b AI_PIECE = true) :
    minimax depth isMaximizingPlayer alpha beta b = some (1000, b) := by
  unfold minimax minimaxAux
  simp only [hwin, if_true]

theorem minimax_ai_win_witness :
    (checkWin bothWin AI_PIECE = true ∧ checkWin bothWin PLAYER_PIECE = true) ∧
    minimax 0 false 5 (-5) bothWin = some (1000, bothWin) :=
  ⟨⟨by decide, by decide⟩, minimax_ai_win bothWin 0 false 5 (-5) (by decide)⟩

/-- C5: for every board, every depth (in particular every depth `>= 0`), both
values of `isMaximizingPlayer` and all `alpha`, `beta`, `minimax` returns and
the board it leaves is the board it was called on; likewise `getBestMove`
returns and leaves the board it was called on. -/
theorem search_restores_board (b : Board) (depth : Int) (isMaximizingPlayer : Bool)
    (alpha beta : Int) :
    (∃ score, minimax depth isMaximizingPlayer alpha beta b = some (score, b)) ∧
    (∃ col, getBestMove b = some (col, b)) :=
  ⟨⟨_, minimax_eq depth isMaximizingPlayer alpha beta b⟩, ⟨_, getBestMove_eq b⟩⟩

/-- C3 (as stated, refuted): on the board with three `O` in row 0 at columns
1, 2 and 3, `getBestMove` does not return a column among 0 and 4 after whose
drop `checkWin('O')` holds. -/
theorem getBestMove_threeInRow_not_completing :
    ¬ ∃ col : Int, getBestMove threeInRow = some (col, threeInRow) ∧ (col = 0 ∨ col = 4) ∧
        checkWin (dropPiece col AI_PIECE threeInRow).2 AI_PIECE = true := by
  rintro ⟨col, hcol, h04, _⟩
  rw [getBestMove_threeInRow] at hcol
  have h3 : (3 : Int) = col := congrArg Prod.fst (Option.some.inj hcol)
  omega

/-- C3 (amended): on the board with three `O` in row 0 at columns 1, 2 and 3,
`getBestMove` returns the center column 3.  The moves into columns 3, 0 and 4
all get the score `+1000` from `minimax`, and column 3 comes first in the
order of examination.  After `dropPiece(3, 'O')` the piece `O` has no four in
a row yet, whereas `dropPiece(0, 'O')` and `dropPiece(4, 'O')` would each
complete the four. -/
theorem getBestMove_threeInRow_center :
    getBestMove threeInRow = some (3, threeInRow) ∧
    (minimax MAX_DEPTH false (-INT_MAX) INT_MAX (dropPiece 3 AI_PIECE threeInRow).2).map Prod.fst
      = some 1000 ∧
    (minimax MAX_DEPTH false (-INT_MAX) INT_MAX (dropPiece 0 AI_PIECE threeInRow).2).map Prod.fst
      = some 1000 ∧
    (minimax MAX_DEPTH false (-INT_MAX) INT_MAX (dropPiece 4 AI_PIECE threeInRow).2).map Prod.fst
      = some 1000 ∧
    checkWin (dropPiece 3 AI_PIECE threeInRow).2 AI_PIECE = false ∧
    checkWin (dropPiece 0 AI_PIECE threeInRow).2 AI_PIECE = true ∧
    checkWin (dropPiece 4 AI_PIECE threeInRow).2 AI_PIECE = true := by
  refine ⟨getBestMove_threeInRow, ?_, ?_, ?_, by decide, by decide, by decide⟩
  · rw [minimax_eq, minimaxVal_threeInRow_center]; rfl
  · rw [minimax_eq, minimaxVal_threeInRow_left]; rfl
  · rw [minimax_eq, minimaxVal_threeInRow_right]; rfl

/-- C4: on the empty board, `getBestMove` (with `MAX_DEPTH = 4`) returns the
center column 3 and leaves the board empty. -/
theorem getBestMove_resetBoard : getBestMove resetBoard = some (3, resetBoard) := by
  rw [getBestMove_eq, getBestMoveVal_resetBoard]

/-- C10 (as stated, refuted): it is not the case that on every board
`getBestMove` returns the sentinel `-1` if and only if the board is completely
full: on `drawnButTwo` it returns `-1`, and the board has two empty cells. -/
theorem getBestMove_sentinel_not_iff_full :
    ¬ ∀ b : Board, (∃ b2, getBestMove b = some (-1, b2)) ↔ boardFull b := by
  intro h
  exact getBestMove_drawnButTwo.2.1 ((h drawnButTwo).1 ⟨_, getBestMove_drawnButTwo.1⟩)

/-- C10 (amended): for every board, `getBestMove` returns `-1` if the board is
completely full; it returns a column other than `-1` if the board has at least
five empty cells, in particular if the board satisfies gravity and row 0 has an
empty cell; and in general it returns `-1` exactly when no column with
available space has a score greater than `-INT_MAX`. -/
theorem getBestMove_sentinel (b : Board) :
    (boardFull b → getBestMove b = some (-1, b)) ∧
    (5 ≤ emptyCount b → ∃ c : Int, c ≠ -1 ∧ getBestMove b = some (c, b)) ∧
    (Gravity b → boardFullTest b = false →
      ∃ c : Int, c ≠ -1 ∧ getBestMove b = some (c, b)) ∧
    (getBestMove b = some (-1, b) ↔
      ∀ k, getAvailableRow b k ≠ -1 → ∃ s, moveScore b k = some s ∧ s ≤ -INT_MAX) := by
  have hiff := getBestMoveVal_eq_neg_one_iff b
  have hmany : 5 ≤ emptyCount b → ∃ c : Int, c ≠ -1 ∧ getBestMove b = some (c, b) :=
    fun h => ⟨_, getBestMoveVal_ne_neg_one b h, getBestMove_eq b⟩
  refine ⟨fun hfull => ?_, hmany, fun hg htest => ?_, ?_⟩
  · rw [getBestMove_eq, hiff.2 (fun k hk => absurd (getAvailableRow_of_boardFull hfull k) hk)]
  · apply hmany
    have hsome : ¬ ∀ c, b 0 c ≠ EMPTY := by
      rw [← boardFullTest_iff, htest]
      decide
    obtain ⟨c, hc⟩ := not_forall.1 hsome
    have hle := emptyCount_ge_of_empty_column (gravity_empty_column hg (not_not.1 hc))
    omega
  · rw [getBestMove_eq]
    constructor
    · intro h k hk
      have hval : getBestMoveValLoop sortedCols (-1) (-INT_MAX) b = -1 :=
        (Prod.mk.inj (Option.some.inj h)).1
      exact ⟨_, moveScore_eq b k, hiff.1 hval k hk⟩
    · intro h
      rw [hiff.2 (fun k hk => ?_)]
      obtain ⟨s, hs, hle⟩ := h k hk
      rw [moveScore_eq] at hs
      rw [Option.some.inj hs]
      exact hle

theorem getBestMove_sentinel_witness :
    (boardFull fullDrawn ∧ 5 ≤ emptyCount threeInRow ∧
      Gravity resetBoard ∧ boardFullTest resetBoard = false) ∧
    getBestMove fullDrawn = some (-1, fullDrawn) ∧
    (∃ c : Int, c ≠ -1 ∧ getBestMove threeInRow = some (c, threeInRow)) ∧
    (∃ c : Int, c ≠ -1 ∧ getBestMove resetBoard = some (c, resetBoard)) :=
  ⟨⟨by decide, by decide, gravity_resetBoard, by decide⟩,
   (getBestMove_sentinel fullDrawn).1 (by decide),
   (getBestMove_sentinel threeInRow).2.1 (by decide),
   (getBestMove_sentinel resetBoard).2.2.1 gravity_resetBoard (by decide)⟩

/-! ## Static evaluation -/

/-- C12 (as stated, refuted): it is not the case that on every board and for
every piece in `{X, O}`, `evaluateBoard` returns `+1000` if the piece has four
in a row, otherwise `-1000` if the opposing piece has, otherwise `0`: on
`bothWin` both pieces have four in a row and `evaluateBoard('O')` is `0`. -/
theorem evaluateBoard_not_priority :
    ¬ ∀ (b : Board) (piece : Char), piece = PLAYER_PIECE ∨ piece = AI_PIECE →
        evaluateBoard b piece =
          if checkWin b piece then 1000
          else if checkWin b (if piece = AI_PIECE then PLAYER_PIECE else AI_PIECE) then -1000
          else 0 := by
  intro h
  have h1 := h bothWin AI_PIECE (Or.inr rfl)
  have h2 : evaluateBoard bothWin AI_PIECE = 0 := by decide
  have h3 : checkWin bothWin AI_PIECE = true := by decide
  rw [h2, h3] at h1
  exact absurd h1 (by decide)

/-- C12 (amended): for every board and every piece, with the opposing piece
`X` for `O` and `O` otherwise, `evaluateBoard` returns `+1000` if the piece has
four in a row and the opposing piece has not, `-1000` if the opposing piece has
four in a row and the piece has not, and `0` if both have or neither has; the
notion of four in a row is that of `checkWin`. -/
theorem evaluateBoard_cases (b : Board) (piece : Char) :
    evaluateBoard b piece =
      if checkWin b piece = true ∧
          checkWin b (if piece = AI_PIECE then PLAYER_PIECE else AI_PIECE) = false then 1000
      else if checkWin b (if piece = AI_PIECE then PLAYER_PIECE else AI_PIECE) = true ∧
          checkWin b piece = false then -1000
      else 0 := by
  rw [evaluateBoard_eq]
  generalize checkWin b piece = p
  generalize checkWin b (if piece = AI_PIECE then PLAYER_PIECE else AI_PIECE) = q
  cases p <;> cases q <;> simp

/-! ## Invariants of the board and the draw test -/

/-- C13: the board reached from the empty board of `resetBoard` by any sequence
of `dropPiece` calls, with arbitrary integer columns and pieces in `{X, O}`,
whether the calls succeed or fail, satisfies gravity: in every column every
cell below an occupied cell is occupied, that is, the occupied cells of the
column are exactly the rows below some height. -/
theorem gravity_invariant (calls : List (Int × Char))
    (hp : ∀ call ∈ calls, call.2 = PLAYER_PIECE ∨ call.2 = AI_PIECE) :
    Gravity (dropAll calls resetBoard) ∧
    ∀ col : Fin COLS, ∃ h : Nat, h ≤ ROWS ∧
      ∀ r : Fin ROWS, dropAll calls resetBoard r col ≠ EMPTY ↔ r.val < h :=
  have hg := gravity_dropAll calls resetBoard gravity_resetBoard hp
  ⟨hg, gravity_run hg⟩

theorem gravity_invariant_witness :
    (∀ call ∈ [((3 : Int), 'O'), (9, 'X'), (3, 'X'), (-1, 'O'), (0, 'O')],
      call.2 = PLAYER_PIECE ∨ call.2 = AI_PIECE) ∧
    (Gravity (dropAll [((3 : Int), 'O'), (9, 'X'), (3, 'X'), (-1, 'O'), (0, 'O')] resetBoard) ∧
     ∀ col : Fin COLS, ∃ h : Nat, h ≤ ROWS ∧
      ∀ r : Fin ROWS,
        dropAll [((3 : Int), 'O'), (9, 'X'), (3, 'X'), (-1, 'O'), (0, 'O')] resetBoard r col ≠ EMPTY
          ↔ r.val < h) :=
  ⟨by decide, gravity_invariant _ (by decide)⟩

/-- C14 (the code at the failing input): the draw test of the game loop is true
exactly when row 0, the row that fills first, has no empty cell.  The board
`bottomRowFull` is reached from the empty board by seven alternating
successful drops, neither side has four in a row on it, and the draw test is
true on it, although the whole topmost row 5 is empty and every column has the
available row 1. -/
theorem boardFullTest_bottomRowFull :
    (∀ b : Board, boardFullTest b = true ↔ ∀ c, b 0 c ≠ EMPTY) ∧
    dropAll [(0, 'O'), (1, 'X'), (2, 'O'), (3, 'X'), (4, 'O'), (5, 'X'), (6, 'O')] resetBoard
      = bottomRowFull ∧
    checkWin bottomRowFull AI_PIECE = false ∧ checkWin bottomRowFull PLAYER_PIECE = false ∧
    boardFullTest bottomRowFull = true ∧
    (∀ c, bottomRowFull 5 c = EMPTY) ∧ (∀ c, getAvailableRow bottomRowFull c = 1) := by
  refine ⟨boardFullTest_iff, ?_, by decide, by decide, by decide, by decide, by decide⟩
  funext i j
  revert i j
  decide

/-- C15: on every board without an empty cell the draw test of the game loop
is true, and `dropPiece(c, piece)` returns `false` and leaves the board as it
was for every column `c` (in particular every `c` in `0..6`) and every piece. -/
theorem full_board_rejects_drops (b : Board) (hfull : boardFull b) :
    boardFullTest b = true ∧
    ∀ (c : Int) (piece : Char), dropPiece c piece b = (false, b) := by
  refine ⟨(boardFullTest_iff b).2 (fun c => hfull 0 c), fun c piece => ?_⟩
  cases hok : (dropPiece c piece b).1 with
  | true =>
    obtain ⟨col, row, _, hrow, _⟩ := dropPiece_success hok
    exact absurd (firstEmptyRow_eq_some hrow).1 (hfull row col)
  | false => exact Prod.ext hok (dropPiece_fail hok)

theorem full_board_rejects_drops_witness :
    boardFull fullDrawn ∧
    (boardFullTest fullDrawn = true ∧
     ∀ (c : Int) (piece : Char), dropPiece c piece fullDrawn = (false, fullDrawn)) :=
  ⟨by decide, full_board_rejects_drops fullDrawn (by decide)⟩

/-! ## The search at depth 0 and on a full board -/

/-- C18: on every board on which neither `O` nor `X` has four in a row, for
both values of `isMaximizingPlayer` and all `alpha`, `beta`, `minimax` at depth
0 returns `evaluateBoard` of the side to move (`O` when maximizing, `X` when
minimizing), and that value is `0`. -/
theorem minimax_depth_zero (b : Board) (isMaximizingPlayer : Bool) (alpha beta : Int)
    (hO : checkWin b AI_PIECE = false) (hX : checkWin b PLAYER_PIECE = false) :
    minimax 0 isMaximizingPlayer alpha beta b =
      some (evaluateBoard b (if isMaximizingPlayer then AI_PIECE else PLAYER_PIECE), b) ∧
    evaluateBoard b (if isMaximizingPlayer then AI_PIECE else PLAYER_PIECE) = 0 := by
  refine ⟨?_, evaluateBoard_no_win isMaximizingPlayer hO hX⟩
  rw [minimax_eq, minimaxVal_no_win _ _ _ _ _ hO hX, if_pos rfl]

theorem minimax_depth_zero_witness :
    (checkWin threeInRow AI_PIECE = false ∧ checkWin threeInRow PLAYER_PIECE = false) ∧
    (minimax 0 true 7 (-7) threeInRow =
      some (evaluateBoard threeInRow (if true then AI_PIECE else PLAYER_PIECE), threeInRow) ∧
     evaluateBoard threeInRow (if true then AI_PIECE else PLAYER_PIECE) = 0) :=
  ⟨⟨by decide, by decide⟩, minimax_depth_zero threeInRow true 7 (-7) (by decide) (by decide)⟩

/-- C20: on every board without an empty cell on which neither `O` nor `X` has
four in a row, for every depth `d > 0` and all `alpha`, `beta`,
`minimax(d, true, alpha, beta)` returns `-INT_MAX = -2147483647` and
`minimax(d, false, alpha, beta)` returns `+INT_MAX = 2147483647`: a drawn full
board met above depth 0 is scored with the sentinel, not with `0`. -/
theorem minimax_full_drawn (b : Board) (d : Int) (alpha beta : Int)
    (hfull : boardFull b) (hO : checkWin b AI_PIECE = false)
    (hX : checkWin b PLAYER_PIECE = false) (hd : 0 < d) :
    minimax d true alpha beta b = some (-2147483647, b) ∧
    minimax d false alpha beta b = some (2147483647, b) := by
  have hd0 : ¬ d = 0 := by omega
  have hcols := getAvailableRow_of_boardFull hfull
  constructor
  · rw [minimax_eq, minimaxVal_no_win _ _ _ _ _ hO hX, if_neg hd0,
      minimaxValLoop_full _ _ _ _ hcols]
    rfl
  · rw [minimax_eq, minimaxVal_no_win _ _ _ _ _ hO hX, if_neg hd0,
      minimaxValLoop_full _ _ _ _ hcols]
    rfl

theorem minimax_full_drawn_witness :
    (boardFull fullDrawn ∧ checkWin fullDrawn AI_PIECE = false ∧
      checkWin fullDrawn PLAYER_PIECE = false ∧ (0 : Int) < 2) ∧
    (minimax 2 true (-2147483647) 2147483647 fullDrawn = some (-2147483647, fullDrawn) ∧
     minimax 2 false (-2147483647) 2147483647 fullDrawn = some (2147483647, fullDrawn)) :=
  ⟨⟨by decide, by decide, by decide, by decide⟩,
   minimax_full_drawn fullDrawn 2 (-2147483647) 2147483647
    (by decide) (by decide) (by decide) (by decide)⟩

/-! ## The move selector -/

/-- C11: on every board, if `getBestMove` returns a column `c` other than the
sentinel `-1`, then `0 <= c < 7`, column `c` has an available row, and the
`dropPiece(c, 'O')` that the game loop performs next, on the board as
`getBestMove` left it, returns `true`. -/
theorem getBestMove_column_valid (b : Board) (c : Int) (b2 : Board)
    (hret : getBestMove b = some (c, b2)) (hc : c ≠ -1) :
    0 ≤ c ∧ c < 7 ∧
    (∃ cf : Fin COLS, (cf.val : Int) = c ∧ getAvailableRow b cf ≠ -1) ∧
    (dropPiece c AI_PIECE b2).1 = true := by
  rw [getBestMove_eq] at hret
  obtain ⟨hcol, hb⟩ := Prod.mk.inj (Option.some.inj hret)
  subst hb
  rcases getBestMoveValLoop_spec b sortedCols (-1) (-INT_MAX) with
    ⟨h1, _⟩ | ⟨_, cf, _, _, h2, h3, _⟩
  · exact absurd (hcol.symm.trans h1) hc
  · have hcf : c = (cf.val : Int) := hcol.symm.trans h2
    subst hcf
    have hlt : cf.val < 7 := cf.isLt
    refine ⟨by omega, by omega, ⟨cf, rfl, h3⟩, ?_⟩
    rw [dropPiece_of_available AI_PIECE h3]

theorem getBestMove_column_valid_witness :
    (getBestMove threeInRow = some (3, threeInRow) ∧ (3 : Int) ≠ -1) ∧
    ((0 : Int) ≤ 3 ∧ (3 : Int) < 7 ∧
     (∃ cf : Fin COLS, (cf.val : Int) = 3 ∧ getAvailableRow threeInRow cf ≠ -1) ∧
     (dropPiece 3 AI_PIECE threeInRow).1 = true) :=
  ⟨⟨getBestMove_threeInRow, by decide⟩,
   getBestMove_column_valid threeInRow 3 threeInRow getBestMove_threeInRow (by decide)⟩

/-- C17: `getBestMove` examines the columns in the order 3, 2, 4, 1, 5, 0, 6.
On every board on which it returns a column `c` other than `-1`, where the
score of an available column `k` is the result of
`minimax(4, false, -INT_MAX, INT_MAX)` on the board after `dropPiece(k, 'O')`:
`c` is available, its score is at least the score of every available column,
and every available column that comes before `c` in the order has a strictly
smaller score. -/
theorem getBestMove_selection (b : Board) (c : Int) (b2 : Board)
    (hret : getBestMove b = some (c, b2)) (hc : c ≠ -1) :
    sortedCols = [3, 2, 4, 1, 5, 0, 6] ∧ MAX_DEPTH = 4 ∧
    (∀ k, getAvailableRow b k ≠ -1 →
      moveScore b k =
        (minimax 4 false (-INT_MAX) INT_MAX (dropPiece (k.val : Int) AI_PIECE b).2).map Prod.fst) ∧
    ∃ (pre : List (Fin COLS)) (cf : Fin COLS) (post : List (Fin COLS)) (best : Int),
      sortedCols = pre ++ cf :: post ∧ c = (cf.val : Int) ∧ getAvailableRow b cf ≠ -1 ∧
      moveScore b cf = some best ∧
      (∀ k, getAvailableRow b k ≠ -1 → ∃ s, moveScore b k = some s ∧ s ≤ best) ∧
      (∀ k ∈ pre, getAvailableRow b k ≠ -1 → ∃ s, moveScore b k = some s ∧ s < best) := by
  refine ⟨by decide, rfl, fun k hk => ?_, ?_⟩
  · rw [dropPiece_of_available AI_PIECE hk]
    rfl
  rw [getBestMove_eq] at hret
  have hcol : getBestMoveValLoop sortedCols (-1) (-INT_MAX) b = c :=
    (Prod.mk.inj (Option.some.inj hret)).1
  rcases getBestMoveValLoop_spec b sortedCols (-1) (-INT_MAX) with
    ⟨h1, _⟩ | ⟨pre, cf, post, h1, h2, h3, _, h5, h6⟩
  · exact absurd (hcol.symm.trans h1) hc
  · refine ⟨pre, cf, post, moveScoreVal b cf, h1, hcol.symm.trans h2, h3, moveScore_eq b cf,
      fun k hk => ⟨moveScoreVal b k, moveScore_eq b k, ?_⟩,
      fun k hk hav => ⟨moveScoreVal b k, moveScore_eq b k, h5 k hk hav⟩⟩
    have hall : ∀ j : Fin COLS, j ∈ sortedCols := by decide
    have hmem : k ∈ pre ++ cf :: post := h1 ▸ hall k
    rcases List.mem_append.1 hmem with hp | hp
    · exact le_of_lt (h5 k hp hk)
    · rcases List.mem_cons.1 hp with rfl | hp
      · exact le_refl _
      · exact h6 k hp hk

theorem getBestMove_selection_witness :
    (getBestMove resetBoard = some (3, resetBoard) ∧ (3 : Int) ≠ -1) ∧
    (sortedCols = [3, 2, 4, 1, 5, 0, 6] ∧ MAX_DEPTH = 4 ∧
     (∀ k, getAvailableRow resetBoard k ≠ -1 →
       moveScore resetBoard k =
         (minimax 4 false (-INT_MAX) INT_MAX
           (dropPiece (k.val : Int) AI_PIECE resetBoard).2).map Prod.fst) ∧
     ∃ (pre : List (Fin COLS)) (cf : Fin COLS) (post : List (Fin COLS)) (best : Int),
       sortedCols = pre ++ cf :: post ∧ (3 : Int) = (cf.val : Int) ∧
       getAvailableRow resetBoard cf ≠ -1 ∧ moveScore resetBoard cf = some best ∧
       (∀ k, getAvailableRow resetBoard k ≠ -1 →
         ∃ s, moveScore resetBoard k = some s ∧ s ≤ best) ∧
       (∀ k ∈ pre, getAvailableRow resetBoard k ≠ -1 →
         ∃ s, moveScore resetBoard k = some s ∧ s < best)) :=
  ⟨⟨by rw [getBestMove_eq, getBestMoveVal_resetBoard], by decide⟩,
   getBestMove_selection resetBoard 3 resetBoard
    (by rw [getBestMove_eq, getBestMoveVal_resetBoard]) (by decide)⟩

/-! ## The range of the search value -/

/-- C19: for every depth `d >= 0`, every board with at least `d` empty cells,
both values of `isMaximizingPlayer` and all `alpha`, `beta`, `minimax` returns
a value among `-1000`, `0` and `+1000` (and the board untouched); the initial
sentinels `-INT_MAX` and `+INT_MAX` are never the result. -/
theorem minimax_value_range (b : Board) (d : Int) (isMaximizingPlayer : Bool)
    (alpha beta : Int) (hd : 0 ≤ d) (hcells : d ≤ (emptyCount b : Int)) :
    ∃ v, minimax d isMaximizingPlayer alpha beta b = some (v, b) ∧
      (v = -1000 ∨ v = 0 ∨ v = 1000) :=
  ⟨_, minimax_eq d isMaximizingPlayer alpha beta b,
    minimaxVal_range _ _ _ _ _ _ (Nat.lt_succ_of_le (emptyCount_le b)) hd hcells⟩

theorem minimax_value_range_witness :
    ((0 : Int) ≤ 2 ∧ (2 : Int) ≤ (emptyCount drawnButTwo : Int)) ∧
    ∃ v, minimax 2 true 0 0 drawnButTwo = some (v, drawnButTwo) ∧
      (v = -1000 ∨ v = 0 ∨ v = 1000) :=
  ⟨⟨by decide, by decide⟩, minimax_value_range drawnButTwo 2 true 0 0 (by decide) (by decide)⟩

/-! ## Alpha-beta pruning -/

/-- C16: for every board, every depth (in particular every depth `>= 0`) and
both values of `isMaximizingPlayer`, `minimax(depth, isMaximizingPlayer,
-INT_MAX, +INT_MAX)` returns the value of the plain, unpruned minimax, which
makes the same terminal checks and depth-0 evaluation and takes the maximum
(when maximizing) or minimum (when minimizing) over all columns with available
space. -/
theorem minimax_eq_plainMinimax (b : Board) (depth : Int) (isMaximizingPlayer : Bool) :
    minimax depth isMaximizingPlayer (-INT_MAX) INT_MAX b =
      some (plainMinimax depth isMaximizingPlayer b, b) := by
  have hI : INT_MAX = 2147483647 := rfl
  have hs := minimaxVal_sound (ROWS * COLS + 1) depth isMaximizingPlayer (-INT_MAX) INT_MAX b
    (Nat.lt_succ_of_le (emptyCount_le b)) (le_refl _) (by omega) (le_refl _)
  have hb := plainMinimaxAux_bounds (ROWS * COLS + 1) depth isMaximizingPlayer b
  unfold WindowSound at hs
  have hv : minimaxVal (ROWS * COLS + 1) depth isMaximizingPlayer (-INT_MAX) INT_MAX b =
      plainMinimax depth isMaximizingPlayer b := by
    unfold plainMinimax
    omega
  rw [minimax_eq, hv]

end Catnect4
